import Mathlib

/-!
Verification of the exchange-connectivity layer of the Dong trading
client against its natural-language specification.

The development shallowly embeds the relevant Python source:

* `WS` — `bybit_futures_trader/api/websocket_client.py`
  (`BybitWebsocketClient`): the subscription registry
  (`subscribe`/`unsubscribe`), the reconnect replay, and the outbound
  message rate limiter (`_send_message`).
* `Bitget` — `third/data_api.py` (`BitgetAPI`): the REST order gateway
  (`_request`, `get_position`, `place_order`, `cancel_all_pending_orders`,
  and the other order operations).
* `Sig` — the signature generation of
  `bybit_futures_trader/api/bybit_client.py` (`BybitClientV2`) and of the
  websocket client, together with an executable SHA-256 / HMAC / encoding
  layer mirroring Python `hashlib` / `hmac` semantics.

Python dictionaries are embedded as association lists with
replace-on-assign semantics, Python sets as duplicate-free lists,
machine-time values as rationals (seconds) or integers (milliseconds),
and fallible calls as `Except` / `Option` values.
-/

namespace WS

/-- A channel dictionary `{"instType": …, "channel": …, "instId": …}` as
passed to `BybitWebsocketClient.subscribe`. -/
structure Channel where
  instType : String
  channel : String
  instId : String
deriving DecidableEq, Repr

/-- The channel key `f"{instType}.{channel}.{instId}"` built in
`subscribe`, `unsubscribe` and `_handle_messages`. -/
def channelKey (c : Channel) : String :=
  c.instType ++ "." ++ c.channel ++ "." ++ c.instId

/-- `max_channels_per_conn = 50` from `BybitWebsocketClient.__init__`. -/
def maxChannelsPerConn : Nat := 50

/-- Python dict assignment `d[k] = v`: replace the existing binding of
`k` in place, otherwise append the new binding (insertion order
preserved, as for a Python dict). -/
def dictAssign {Cb : Type} : List (String × Cb) → String → Cb →
    List (String × Cb)
  | [], k, v => [(k, v)]
  | p :: d, k, v => if p.1 = k then (k, v) :: d else p :: dictAssign d k v

/-- Python `d.pop(k, None)`: drop any binding of `k`. -/
def dictPop {Cb : Type} (d : List (String × Cb)) (k : String) :
    List (String × Cb) :=
  d.filter (fun p => p.1 ≠ k)

/-- Python `s.add(k)` on a set embedded as a duplicate-free list. -/
def setAdd (l : List String) (k : String) : List String :=
  if k ∈ l then l else l ++ [k]

/-- Python `s.discard(k)` on a set embedded as a duplicate-free list. -/
def setDiscard (l : List String) (k : String) : List String :=
  l.filter (fun x => x ≠ k)

/-- The subscription registry owned by `BybitWebsocketClient`:
`self.callbacks` (a dict keyed by channel key) and
`self.subscribed_channels` (a set of channel keys). -/
structure Registry (Cb : Type) where
  callbacks : List (String × Cb)
  subscribed : List String
deriving DecidableEq, Repr

/-- The registry as initialised in `__init__`: both containers empty. -/
def emptyRegistry (Cb : Type) : Registry Cb := ⟨[], []⟩

/-- An outbound `{"op": …, "args": [channel dicts]}` frame. -/
structure Frame where
  op : String
  args : List Channel
deriving DecidableEq, Repr

/-- The recording loop at the end of `subscribe`: for each channel,
`self.callbacks[channel_key] = callback` and
`self.subscribed_channels.add(channel_key)`. -/
def subscribeFold {Cb : Type} (callback : Cb) (st : Registry Cb)
    (channels : List Channel) : Registry Cb :=
  channels.foldl (fun acc c =>
    { callbacks := dictAssign acc.callbacks (channelKey c) callback
      subscribed := setAdd acc.subscribed (channelKey c) }) st

/-- The removal loop at the end of `unsubscribe`: for each channel,
`self.callbacks.pop(channel_key, None)` and
`self.subscribed_channels.discard(channel_key)`. -/
def unsubscribeFold {Cb : Type} (st : Registry Cb)
    (channels : List Channel) : Registry Cb :=
  channels.foldl (fun acc c =>
    { callbacks := dictPop acc.callbacks (channelKey c)
      subscribed := setDiscard acc.subscribed (channelKey c) }) st

/-- `BybitWebsocketClient.subscribe(channels, callback)` on well-typed
arguments: raise when `len(subscribed_channels) + len(channels)` exceeds
`max_channels_per_conn` (the first statement of the method, before any
frame is sent or any state is touched), otherwise send one subscribe
frame and record `channel_key → callback` for each channel, adding each
key to the subscribed set. -/
def subscribe {Cb : Type} (st : Registry Cb) (channels : List Channel)
    (callback : Cb) : Except String (Frame × Registry Cb) :=
  if st.subscribed.length + channels.length > maxChannelsPerConn then
    .error "max channel count exceeded"
  else
    .ok (⟨"subscribe", channels⟩, subscribeFold callback st channels)

/-- `BybitWebsocketClient.unsubscribe(channels)`: send one unsubscribe
frame and drop each channel key from the callback dict and the
subscribed set. -/
def unsubscribe {Cb : Type} (st : Registry Cb) (channels : List Channel) :
    Frame × Registry Cb :=
  (⟨"unsubscribe", channels⟩, unsubscribeFold st channels)

/-- A registry operation: a `subscribe(channels, callback)` call or an
`unsubscribe(channels)` call. -/
inductive Op (Cb : Type) where
  | sub : List Channel → Cb → Op Cb
  | unsub : List Channel → Op Cb
deriving DecidableEq, Repr

/-- Run a sequence of subscribe/unsubscribe calls against the registry,
stopping on a capacity error. -/
def run {Cb : Type} (st : Registry Cb) : List (Op Cb) →
    Except String (Registry Cb)
  | [] => .ok st
  | .sub chs cb :: ops =>
      match subscribe st chs cb with
      | .error e => .error e
      | .ok (_, st') => run st' ops
  | .unsub chs :: ops => run (unsubscribe st chs).2 ops

/-- The channel set implied by a call sequence: subscribe adds every
channel key of the call, unsubscribe removes every channel key. -/
def impliedSet {Cb : Type} (s : Finset String) : List (Op Cb) → Finset String
  | [] => s
  | .sub chs _ :: ops => impliedSet (s ∪ (chs.map channelKey).toFinset) ops
  | .unsub chs :: ops => impliedSet (s \ (chs.map channelKey).toFinset) ops

/-- Look a channel key up in the callback dict. -/
def lookupCb {Cb : Type} (d : List (String × Cb)) (k : String) : Option Cb :=
  (d.find? (fun p => p.1 = k)).map (fun p => p.2)

theorem dictAssign_keys {Cb : Type} (d : List (String × Cb)) (k : String)
    (v : Cb) : (dictAssign d k v).map Prod.fst = setAdd (d.map Prod.fst) k := by
  induction d with
  | nil => simp [dictAssign, setAdd]
  | cons p d ih =>
      by_cases hp : p.1 = k
      · simp [dictAssign, setAdd, hp]
      · by_cases hd : k ∈ d.map Prod.fst
        · simp [dictAssign, setAdd, hp, Ne.symm hp, hd] at ih ⊢
          exact ih
        · simp [dictAssign, setAdd, hp, Ne.symm hp, hd] at ih ⊢
          exact ih

theorem dictPop_keys {Cb : Type} (d : List (String × Cb)) (k : String) :
    (dictPop d k).map Prod.fst = setDiscard (d.map Prod.fst) k := by
  induction d with
  | nil => rfl
  | cons p d ih =>
      by_cases hp : p.1 = k
      · simp [dictPop, setDiscard, List.filter_cons, hp] at ih ⊢
        exact ih
      · simp [dictPop, setDiscard, List.filter_cons, hp] at ih ⊢
        exact ih

theorem lookupCb_dictAssign_self {Cb : Type} (d : List (String × Cb))
    (k : String) (v : Cb) : lookupCb (dictAssign d k v) k = some v := by
  induction d with
  | nil => simp [dictAssign, lookupCb]
  | cons p d ih =>
      by_cases hp : p.1 = k
      · simp [dictAssign, lookupCb, List.find?, hp]
      · simpa [dictAssign, lookupCb, List.find?, hp] using ih

theorem lookupCb_dictAssign_ne {Cb : Type} (d : List (String × Cb))
    (k q : String) (v : Cb) (hq : q ≠ k) :
    lookupCb (dictAssign d k v) q = lookupCb d q := by
  induction d with
  | nil => simp [dictAssign, lookupCb, List.find?, Ne.symm hq]
  | cons p d ih =>
      by_cases hp : p.1 = k
      · have hpq : ¬ p.1 = q := by rw [hp]; exact fun h => hq h.symm
        simp [dictAssign, lookupCb, List.find?, hp, hpq, Ne.symm hq]
      · by_cases hpq : p.1 = q
        · simp [dictAssign, lookupCb, List.find?, hp, hpq, hq]
        · simp [dictAssign, lookupCb, List.find?, hp, hpq] at ih ⊢
          exact ih

theorem setAdd_nodup (l : List String) (k : String) (h : l.Nodup) :
    (setAdd l k).Nodup := by
  unfold setAdd
  split
  · exact h
  · rename_i hk
    refine List.Nodup.append h (List.nodup_singleton k) ?_
    intro x hx hx'
    simp only [List.mem_singleton] at hx'
    exact hk (hx' ▸ hx)

theorem setAdd_toFinset (l : List String) (k : String) :
    (setAdd l k).toFinset = insert k l.toFinset := by
  unfold setAdd
  split
  · rename_i hk
    rw [Finset.insert_eq_self.mpr (List.mem_toFinset.mpr hk)]
  · ext x
    simp [or_comm]

theorem setDiscard_nodup (l : List String) (k : String) (h : l.Nodup) :
    (setDiscard l k).Nodup := List.Nodup.filter _ h

theorem setDiscard_toFinset (l : List String) (k : String) :
    (setDiscard l k).toFinset = l.toFinset.erase k := by
  ext x
  simp [setDiscard, Finset.mem_erase, and_comm]

theorem subscribeFold_subscribed {Cb : Type} (cb : Cb) (st : Registry Cb)
    (chs : List Channel) :
    (subscribeFold cb st chs).subscribed =
      chs.foldl (fun l c => setAdd l (channelKey c)) st.subscribed := by
  induction chs generalizing st with
  | nil => rfl
  | cons c cs ih =>
      simp only [subscribeFold, List.foldl_cons] at ih ⊢
      exact ih _

theorem subscribeFold_keys {Cb : Type} (cb : Cb) (st : Registry Cb)
    (chs : List Channel) :
    (subscribeFold cb st chs).callbacks.map Prod.fst =
      chs.foldl (fun l c => setAdd l (channelKey c))
        (st.callbacks.map Prod.fst) := by
  induction chs generalizing st with
  | nil => rfl
  | cons c cs ih =>
      simp only [subscribeFold, List.foldl_cons] at ih ⊢
      rw [ih, dictAssign_keys]

theorem unsubscribeFold_subscribed {Cb : Type} (st : Registry Cb)
    (chs : List Channel) :
    (unsubscribeFold st chs).subscribed =
      chs.foldl (fun l c => setDiscard l (channelKey c)) st.subscribed := by
  induction chs generalizing st with
  | nil => rfl
  | cons c cs ih =>
      simp only [unsubscribeFold, List.foldl_cons] at ih ⊢
      exact ih _

theorem unsubscribeFold_keys {Cb : Type} (st : Registry Cb)
    (chs : List Channel) :
    (unsubscribeFold st chs).callbacks.map Prod.fst =
      chs.foldl (fun l c => setDiscard l (channelKey c))
        (st.callbacks.map Prod.fst) := by
  induction chs generalizing st with
  | nil => rfl
  | cons c cs ih =>
      simp only [unsubscribeFold, List.foldl_cons] at ih ⊢
      rw [ih, dictPop_keys]

theorem foldl_setAdd_toFinset (l : List String) (chs : List Channel) :
    (chs.foldl (fun l c => setAdd l (channelKey c)) l).toFinset =
      l.toFinset ∪ (chs.map channelKey).toFinset := by
  induction chs generalizing l with
  | nil => simp
  | cons c cs ih =>
      simp only [List.foldl_cons, List.map_cons, List.toFinset_cons]
      rw [ih, setAdd_toFinset]
      ext x
      simp only [Finset.mem_union, Finset.mem_insert, List.mem_toFinset]
      tauto

theorem foldl_setAdd_nodup (l : List String) (chs : List Channel)
    (h : l.Nodup) :
    (chs.foldl (fun l c => setAdd l (channelKey c)) l).Nodup := by
  induction chs generalizing l with
  | nil => exact h
  | cons c cs ih => exact ih _ (setAdd_nodup _ _ h)

theorem foldl_setDiscard_toFinset (l : List String) (chs : List Channel) :
    (chs.foldl (fun l c => setDiscard l (channelKey c)) l).toFinset =
      l.toFinset \ (chs.map channelKey).toFinset := by
  induction chs generalizing l with
  | nil => simp
  | cons c cs ih =>
      simp only [List.foldl_cons, List.map_cons, List.toFinset_cons]
      rw [ih, setDiscard_toFinset]
      ext x
      simp
      tauto

theorem foldl_setDiscard_nodup (l : List String) (chs : List Channel)
    (h : l.Nodup) :
    (chs.foldl (fun l c => setDiscard l (channelKey c)) l).Nodup := by
  induction chs generalizing l with
  | nil => exact h
  | cons c cs ih => exact ih _ (setDiscard_nodup _ _ h)

theorem subscribeFold_lookup {Cb : Type} (cb : Cb) (st : Registry Cb)
    (chs : List Channel) (k : String)
    (h : lookupCb st.callbacks k = some cb ∨ k ∈ chs.map channelKey) :
    lookupCb (subscribeFold cb st chs).callbacks k = some cb := by
  induction chs generalizing st with
  | nil =>
      rcases h with h | h
      · exact h
      · simp at h
  | cons c cs ih =>
      simp only [subscribeFold, List.foldl_cons] at ih ⊢
      apply ih
      by_cases hk : k = channelKey c
      · subst hk
        exact Or.inl (lookupCb_dictAssign_self _ _ _)
      · rcases h with h | h
        · exact Or.inl (by rw [lookupCb_dictAssign_ne _ _ _ _ hk]; exact h)
        · simp only [List.map_cons, List.mem_cons] at h
          rcases h with h | h
          · exact absurd h hk
          · exact Or.inr h

theorem run_inv {Cb : Type} (ops : List (Op Cb)) (st0 st : Registry Cb)
    (h0 : st0.callbacks.map Prod.fst = st0.subscribed)
    (h0' : st0.subscribed.Nodup) (h : run st0 ops = .ok st) :
    st.callbacks.map Prod.fst = st.subscribed ∧ st.subscribed.Nodup
    ∧ st.subscribed.toFinset = impliedSet st0.subscribed.toFinset ops := by
  induction ops generalizing st0 with
  | nil =>
      simp only [run, Except.ok.injEq] at h
      subst h
      exact ⟨h0, h0', rfl⟩
  | cons op ops ih =>
      match op with
      | .sub chs cb =>
          rw [run] at h
          cases hsub : subscribe st0 chs cb with
          | error e => rw [hsub] at h; cases h
          | ok pr =>
              rw [hsub] at h
              unfold subscribe at hsub
              split at hsub
              · cases hsub
              · cases hsub
                have hkeys : (subscribeFold cb st0 chs).callbacks.map Prod.fst =
                    (subscribeFold cb st0 chs).subscribed := by
                  rw [subscribeFold_keys, subscribeFold_subscribed, h0]
                have hnd : (subscribeFold cb st0 chs).subscribed.Nodup := by
                  rw [subscribeFold_subscribed]
                  exact foldl_setAdd_nodup _ _ h0'
                have hfin := ih (subscribeFold cb st0 chs) hkeys hnd h
                refine ⟨hfin.1, hfin.2.1, ?_⟩
                rw [hfin.2.2, impliedSet, subscribeFold_subscribed,
                  foldl_setAdd_toFinset]
      | .unsub chs =>
          rw [run] at h
          have hkeys : (unsubscribeFold st0 chs).callbacks.map Prod.fst =
              (unsubscribeFold st0 chs).subscribed := by
            rw [unsubscribeFold_keys, unsubscribeFold_subscribed, h0]
          have hnd : (unsubscribeFold st0 chs).subscribed.Nodup := by
            rw [unsubscribeFold_subscribed]
            exact foldl_setDiscard_nodup _ _ h0'
          have hfin := ih (unsubscribeFold st0 chs) hkeys hnd h
          refine ⟨hfin.1, hfin.2.1, ?_⟩
          rw [hfin.2.2, impliedSet, unsubscribeFold_subscribed,
            foldl_setDiscard_toFinset]

/-- C9: for any sequence of successful subscribe/unsubscribe calls run
from the initial empty registry, the recorded channel set equals the set
implied by the call sequence; after every such sequence at most one
callback is bound per channel identity (the callback keys are
duplicate-free and coincide with the subscribed set); and a further
successful subscribe binds each of its channel identities to the new
callback — overwriting any existing binding rather than adding a second
one, since the keys remain duplicate-free. -/
theorem registry_tracks_call_sequence {Cb : Type} (ops : List (Op Cb))
    (st : Registry Cb) (h : run (emptyRegistry Cb) ops = .ok st) :
    st.subscribed.toFinset = impliedSet ∅ ops
    ∧ (st.callbacks.map Prod.fst).Nodup
    ∧ st.callbacks.map Prod.fst = st.subscribed
    ∧ (∀ chs cb fr st', subscribe st chs cb = .ok (fr, st') →
        (st'.callbacks.map Prod.fst).Nodup
        ∧ ∀ ch ∈ chs, lookupCb st'.callbacks (channelKey ch) = some cb) := by
  have hinv := run_inv ops (emptyRegistry Cb) st rfl List.nodup_nil h
  have hset : st.subscribed.toFinset = impliedSet ∅ ops := by
    simpa [emptyRegistry] using hinv.2.2
  refine ⟨hset, hinv.1 ▸ hinv.2.1, hinv.1, ?_⟩
  intro chs cb fr st' hsub
  unfold subscribe at hsub
  split at hsub
  · cases hsub
  · cases hsub
    constructor
    · rw [subscribeFold_keys, hinv.1]
      exact foldl_setAdd_nodup _ _ hinv.2.1
    · intro ch hch
      exact subscribeFold_lookup cb st chs (channelKey ch)
        (Or.inr (List.mem_map.mpr ⟨ch, hch, rfl⟩))

/-- A sample channel dictionary. -/
def cDemo : Channel := ⟨"SPOT", "ticker", "BTCUSDT"⟩

/-- A sample call sequence: one subscribe of one channel. -/
def demoOps : List (Op Nat) := [.sub [cDemo] 7]

/-- The registry reached by `demoOps` from the empty registry. -/
def demoReg : Registry Nat := subscribeFold 7 (emptyRegistry Nat) [cDemo]

/-- Witness for C9: the invariant evaluated on the concrete one-call
sequence `demoOps`. -/
theorem registry_tracks_call_sequence_witness :
    demoReg.subscribed.toFinset = impliedSet ∅ demoOps
    ∧ (demoReg.callbacks.map Prod.fst).Nodup
    ∧ demoReg.callbacks.map Prod.fst = demoReg.subscribed :=
  let h := registry_tracks_call_sequence demoOps demoReg (by rfl)
  ⟨h.1, h.2.1, h.2.2.1⟩

/-- C4 counterexample input: fifty pairwise distinct channels. -/
def demoChannels : List Channel :=
  (List.range maxChannelsPerConn).map
    fun i => ⟨"USDT-FUTURES", "ticker", toString i⟩

/-- The registry holding all fifty `demoChannels`, reached by running a
single subscribe call from the empty registry. -/
def reg50 : Registry Nat :=
  match run (emptyRegistry Nat) [.sub demoChannels 0] with
  | .ok st => st
  | .error _ => emptyRegistry Nat

set_option maxRecDepth 8000 in
/-- Counterexample to C4 as stated: with all fifty channels subscribed,
re-subscribing a channel that is already subscribed fails the capacity
check (`len(subscribed) + len(channels) > 50`), even though the
resulting total subscribed-channel count would be fifty — not in excess
of the maximum. So `subscribe` does not fail *iff* the total would
exceed the maximum. -/
theorem subscribe_capacity_counterexample :
    (subscribe reg50 [⟨"USDT-FUTURES", "ticker", "0"⟩] (0 : Nat)).isOk = false
    ∧ (reg50.subscribed.toFinset ∪
        ([(⟨"USDT-FUTURES", "ticker", "0"⟩ : Channel)].map channelKey).toFinset).card
        ≤ maxChannelsPerConn := by
  constructor
  · decide
  · decide

/-- C4 (amended): `subscribe` fails with a capacity error if and only if
the current subscribed-channel count plus the number of requested
channels (counting duplicates and already-subscribed channels) exceeds
the maximum of fifty; the check is the first statement of the method, so
on failure no subscribe frame is produced and the registry is unchanged,
while on success the frame carries exactly the requested channels and
the subscribed set grows by exactly their keys. -/
theorem subscribe_capacity {Cb : Type} (st : Registry Cb)
    (chs : List Channel) (cb : Cb) :
    ((subscribe st chs cb).isOk = false ↔
      st.subscribed.length + chs.length > maxChannelsPerConn)
    ∧ (∀ fr st', subscribe st chs cb = .ok (fr, st') →
        fr = ⟨"subscribe", chs⟩
        ∧ st'.subscribed.toFinset =
            st.subscribed.toFinset ∪ (chs.map channelKey).toFinset) := by
  constructor
  · unfold subscribe
    split
    · rename_i hc
      simp [Except.isOk, Except.toBool, hc]
    · rename_i hc
      simp [Except.isOk, Except.toBool, hc]
  · intro fr st' hsub
    unfold subscribe at hsub
    split at hsub
    · cases hsub
    · cases hsub
      exact ⟨rfl, by rw [subscribeFold_subscribed, foldl_setAdd_toFinset]⟩

/-- Witness for C4 (amended): subscribing one channel to the empty
registry is within capacity, and the success case records exactly that
channel key. -/
theorem subscribe_capacity_witness :
    (¬ ((subscribe (emptyRegistry Nat) [cDemo] 0).isOk = false))
    ∧ (subscribeFold 0 (emptyRegistry Nat) [cDemo]).subscribed.toFinset =
        (emptyRegistry Nat).subscribed.toFinset ∪
          ([cDemo].map channelKey).toFinset := by
  have h := subscribe_capacity (emptyRegistry Nat) [cDemo] 0
  constructor
  · intro hfail
    have := h.1.mp hfail
    simp [emptyRegistry, maxChannelsPerConn] at this
  · exact (h.2 ⟨"subscribe", [cDemo]⟩ (subscribeFold 0 (emptyRegistry Nat) [cDemo]) (by rfl)).2

/-- A Python value appearing as one element of the `channels` argument:
a channel dict in correct calls, or a channel-key string — which is what
`list(self.subscribed_channels)` yields in the reconnect replay. -/
inductive PyVal where
  | str : String → PyVal
  | dict : Channel → PyVal
deriving DecidableEq, Repr

/-- A Python exception raised by a dynamic call. -/
inductive PyErr where
  | typeError : String → PyErr
  | exception : String → PyErr
deriving DecidableEq, Repr

/-- Reading `channel["instType"]` etc.: defined on a dict, a `TypeError`
on a string (string indices must be integers). -/
def pyChannelOf : PyVal → Except PyErr Channel
  | .dict c => .ok c
  | .str _ => .error (.typeError "string indices must be integers")

/-- An outbound frame whose `args` are raw Python values, as `subscribe`
would send when handed ill-typed channel entries. -/
structure DynFrame where
  op : String
  args : List PyVal
deriving DecidableEq, Repr

/-- `BybitWebsocketClient.subscribe` as a dynamic Python call.
`callback = none` models a call that omits the required positional
argument — Python raises `TypeError` before the body runs. The body then
executes in source order: the capacity check, the subscribe-frame send,
and the recording loop, which raises `TypeError` when a channel entry is
a string rather than a dict. -/
def subscribeCall {Cb : Type} (st : Registry Cb) (channels : List PyVal)
    (callback : Option Cb) :
    Except PyErr (List DynFrame × Registry Cb) :=
  match callback with
  | none =>
      .error (.typeError "subscribe missing 1 required positional argument: callback")
  | some cb =>
      if st.subscribed.length + channels.length > maxChannelsPerConn then
        .error (.exception "max channel count exceeded")
      else
        (channels.foldlM (fun (acc : Registry Cb) v => do
            let c ← pyChannelOf v
            pure (Registry.mk (dictAssign acc.callbacks (channelKey c) cb)
              (setAdd acc.subscribed (channelKey c)))) st).map
          (fun st' => ([⟨"subscribe", channels⟩], st'))

/-- The replay step of `BybitWebsocketClient._reconnect`: when any
channels are recorded, call `self.subscribe(list(self.subscribed_channels))`
— the recorded key strings as the `channels` argument and no `callback`
argument. -/
def reconnectReplay {Cb : Type} (st : Registry Cb) :
    Except PyErr (List DynFrame × Registry Cb) :=
  if st.subscribed.isEmpty then .ok ([], st)
  else subscribeCall st (st.subscribed.map PyVal.str) none

/-- C1: on every registry with at least one recorded channel, the
reconnect replay raises `TypeError` — `_reconnect` calls `subscribe`
without the mandatory `callback` argument (and with key strings in place
of channel dicts) — so no subscribe request is replayed at all; the
exception is caught by `_reconnect`, which sleeps and retries forever. -/
theorem reconnect_replay_raises {Cb : Type} (st : Registry Cb)
    (h : st.subscribed ≠ []) :
    reconnectReplay st =
      .error (.typeError "subscribe missing 1 required positional argument: callback") := by
  unfold reconnectReplay
  rw [if_neg (by simpa [List.isEmpty_iff] using h)]
  rfl

/-- Witness for C1: the replay failure evaluated on the concrete
registry recording the single channel key `SPOT.ticker.BTCUSDT`. -/
theorem reconnect_replay_raises_witness :
    reconnectReplay demoReg =
      .error (.typeError "subscribe missing 1 required positional argument: callback") :=
  reconnect_replay_raises demoReg (by decide)

/-- State of the `_send_message` rate limiter: `self.message_count` and
`self.message_time` (the start of the current counting window, in
seconds; rationals embed the wall-clock values). -/
structure LimiterState where
  count : ℕ
  mtime : ℚ
deriving DecidableEq, Repr

/-- One `_send_message` call at wall-clock time `t`, with per-second
budget `lim` (`message_rate_limit`, default 10): when a full second has
elapsed since `message_time`, reset the counter and the window start;
when the counter has reached the budget, sleep one second, then reset
the counter and set the window start to the wake-up time; finally send
(the returned value is the emission time) and increment the counter. -/
def sendStep (lim : ℕ) (s : LimiterState) (t : ℚ) : LimiterState × ℚ :=
  let s1 := if 1 ≤ t - s.mtime then ⟨0, t⟩ else s
  if lim ≤ s1.count then
    (⟨1, t + 1⟩, t + 1)
  else
    (⟨s1.count + 1, s1.mtime⟩, t)

/-- Run a sequence of sequential sends through the limiter. The i-th
send is issued `gaps[i]` seconds after the previous send completed
(outbound sends on the single session are sequential), starting from
clock `tprev`. Each result pair is (emission time, window start in force
at that emission). -/
def runPairs (lim : ℕ) : LimiterState → ℚ → List ℚ → List (ℚ × ℚ)
  | _, _, [] => []
  | s, tprev, g :: gs =>
      let t := tprev + g
      let r := sendStep lim s t
      (r.2, r.1.mtime) :: runPairs lim r.1 r.2 gs

/-- The emission times of a run of sends. -/
def emissions (lim : ℕ) (s : LimiterState) (tprev : ℚ) (gs : List ℚ) :
    List ℚ :=
  (runPairs lim s tprev gs).map Prod.fst

/-- A burst of twenty sends: ten issued at 0.95 s after start, ten more
at 1.0 s after start. -/
def burstGaps : List ℚ :=
  [19/20, 0, 0, 0, 0, 0, 0, 0, 0, 0, 1/20, 0, 0, 0, 0, 0, 0, 0, 0, 0]

/-- Counterexample to C2 as stated: with the default budget `N = 10`,
twenty sends complete inside the rolling one-second window starting at
0.95 s — the first ten late in the limiter's first counting window, the
next ten right after the counter reset at 1.0 s. The fixed-window
counter of `_send_message` does not bound sends per *rolling* window by
`N`. -/
theorem rate_limit_rolling_window_counterexample :
    ((emissions 10 ⟨0, 0⟩ 0 burstGaps).countP
      (fun e => decide (19/20 ≤ e ∧ e < 19/20 + 1))) = 20 := by
  norm_num [emissions, runPairs, sendStep, burstGaps, List.countP,
    List.countP.go]

theorem sendStep_reset (lim : ℕ) (hlim : 1 ≤ lim) (s : LimiterState) (t : ℚ)
    (hr : 1 ≤ t - s.mtime) : sendStep lim s t = (⟨1, t⟩, t) := by
  simp only [sendStep, if_pos hr]
  rw [if_neg (by simp; omega)]

theorem sendStep_sleep (lim : ℕ) (s : LimiterState) (t : ℚ)
    (hr : ¬ 1 ≤ t - s.mtime) (hs : lim ≤ s.count) :
    sendStep lim s t = (⟨1, t + 1⟩, t + 1) := by
  simp only [sendStep, if_neg hr]
  rw [if_pos hs]

theorem sendStep_plain (lim : ℕ) (s : LimiterState) (t : ℚ)
    (hr : ¬ 1 ≤ t - s.mtime) (hs : ¬ lim ≤ s.count) :
    sendStep lim s t = (⟨s.count + 1, s.mtime⟩, t) := by
  simp only [sendStep, if_neg hr]
  rw [if_neg hs]

theorem sendStep_spec (lim : ℕ) (hlim : 1 ≤ lim) (s : LimiterState) (t : ℚ)
    (hm : s.mtime ≤ t) :
    (sendStep lim s t).1.mtime ≤ (sendStep lim s t).2
    ∧ (sendStep lim s t).2 < (sendStep lim s t).1.mtime + 1
    ∧ t ≤ (sendStep lim s t).2
    ∧ ((sendStep lim s t).1.mtime = s.mtime
        ∨ s.mtime + 1 ≤ (sendStep lim s t).1.mtime)
    ∧ (sendStep lim s t).1.count ≤ lim := by
  by_cases hr : 1 ≤ t - s.mtime
  · rw [sendStep_reset lim hlim s t hr]
    dsimp only
    exact ⟨le_refl t, by linarith, le_refl t, Or.inr (by linarith), hlim⟩
  · by_cases hs : lim ≤ s.count
    · rw [sendStep_sleep lim s t hr hs]
      dsimp only
      exact ⟨le_refl _, by linarith, by linarith, Or.inr (by linarith), hlim⟩
    · rw [sendStep_plain lim s t hr hs]
      dsimp only
      exact ⟨hm, by push_neg at hr; linarith, le_refl t, Or.inl rfl, by omega⟩

theorem runPairs_mem_spec (lim : ℕ) (hlim : 1 ≤ lim) :
    ∀ (gs : List ℚ) (s : LimiterState) (tprev : ℚ),
      (∀ g ∈ gs, 0 ≤ g) → s.mtime ≤ tprev →
      ∀ p ∈ runPairs lim s tprev gs,
        p.2 ≤ p.1 ∧ p.1 < p.2 + 1 ∧ tprev ≤ p.1
        ∧ (p.2 = s.mtime ∨ s.mtime + 1 ≤ p.2) := by
  intro gs
  induction gs with
  | nil =>
      intro s tprev _ _ p hp
      simp [runPairs] at hp
  | cons g gs ih =>
      intro s tprev hg hm p hp
      have hg0 : 0 ≤ g := hg g (List.mem_cons_self g gs)
      have ht : s.mtime ≤ tprev + g := by linarith
      have hspec := sendStep_spec lim hlim s (tprev + g) ht
      simp only [runPairs] at hp
      rcases List.mem_cons.mp hp with rfl | hp'
      · exact ⟨hspec.1, hspec.2.1, by linarith [hspec.2.2.1], hspec.2.2.2.1⟩
      · have hrec := ih (sendStep lim s (tprev + g)).1
          (sendStep lim s (tprev + g)).2
          (fun g' hg' => hg g' (List.mem_cons_of_mem g hg'))
          hspec.1 p hp'
        refine ⟨hrec.1, hrec.2.1, by linarith [hspec.2.2.1, hrec.2.2.1], ?_⟩
        rcases hspec.2.2.2.1 with h1 | h1 <;> rcases hrec.2.2.2 with h2 | h2
        · exact Or.inl (h1 ▸ h2)
        · exact Or.inr (by rw [h1] at h2; exact h2)
        · exact Or.inr (h2 ▸ h1)
        · exact Or.inr (by linarith)

theorem runPairs_cons (lim : ℕ) (s : LimiterState) (tprev g : ℚ)
    (gs : List ℚ) :
    runPairs lim s tprev (g :: gs) =
      ((sendStep lim s (tprev + g)).2, (sendStep lim s (tprev + g)).1.mtime)
        :: runPairs lim (sendStep lim s (tprev + g)).1
             (sendStep lim s (tprev + g)).2 gs := rfl

theorem runPairs_epoch_count (lim : ℕ) (hlim : 1 ≤ lim) :
    ∀ (gs : List ℚ) (s : LimiterState) (tprev : ℚ) (m : ℚ),
      (∀ g ∈ gs, 0 ≤ g) → s.mtime ≤ tprev → s.count ≤ lim →
      ((runPairs lim s tprev gs).countP (fun p => decide (p.2 = m)))
        + (if s.mtime = m then s.count else 0) ≤ lim := by
  intro gs
  induction gs with
  | nil =>
      intro s tprev m _ _ hc
      simp only [runPairs, List.countP_nil, Nat.zero_add]
      split
      · exact hc
      · omega
  | cons g gs ih =>
      intro s tprev m hg hm hc
      have hg0 : 0 ≤ g := hg g (List.mem_cons_self g gs)
      have hg' : ∀ g' ∈ gs, 0 ≤ g' := fun g' h => hg g' (List.mem_cons_of_mem g h)
      have ht : s.mtime ≤ tprev + g := by linarith
      rw [runPairs_cons]
      by_cases hr : 1 ≤ tprev + g - s.mtime
      · rw [sendStep_reset lim hlim s (tprev + g) hr]
        dsimp only
        rw [List.countP_cons]
        have hih := ih ⟨1, tprev + g⟩ (tprev + g) m hg' (le_refl _) hlim
        dsimp only at hih
        by_cases htm : tprev + g = m
        · have hsm : ¬ s.mtime = m := by
            intro h
            rw [h, htm] at hr
            norm_num at hr
          rw [if_pos htm] at hih
          simp only [htm] at hih ⊢
          simp only [decide_eq_true_eq, eq_self_iff_true, if_true, if_neg hsm]
          omega
        · by_cases hsm : s.mtime = m
          · have hzero : (runPairs lim ⟨1, tprev + g⟩ (tprev + g) gs).countP
                (fun p => decide (p.2 = m)) = 0 := by
              rw [List.countP_eq_zero]
              intro p hp
              have hps := (runPairs_mem_spec lim hlim gs ⟨1, tprev + g⟩
                (tprev + g) hg' (le_refl _) p hp).2.2.2
              dsimp only at hps
              simp only [decide_eq_true_eq]
              intro hpm
              rcases hps with h' | h'
              · exact htm (by rw [← hpm, h'])
              · rw [hpm, ← hsm] at h'
                linarith
            rw [hzero, if_pos hsm]
            simp only [decide_eq_true_eq, if_neg htm]
            omega
          · rw [if_neg htm] at hih
            rw [if_neg hsm]
            simp only [decide_eq_true_eq, if_neg htm]
            omega
      · by_cases hs : lim ≤ s.count
        · rw [sendStep_sleep lim s (tprev + g) hr hs]
          dsimp only
          rw [List.countP_cons]
          have hih := ih ⟨1, tprev + g + 1⟩ (tprev + g + 1) m hg' (le_refl _) hlim
          dsimp only at hih
          by_cases htm : tprev + g + 1 = m
          · have hsm : ¬ s.mtime = m := by
              intro h
              rw [h] at ht
              linarith [htm ▸ ht]
            rw [if_pos htm] at hih
            simp only [htm] at hih ⊢
            simp only [decide_eq_true_eq, eq_self_iff_true, if_true, if_neg hsm]
            omega
          · by_cases hsm : s.mtime = m
            · have hzero : (runPairs lim ⟨1, tprev + g + 1⟩ (tprev + g + 1) gs).countP
                  (fun p => decide (p.2 = m)) = 0 := by
                rw [List.countP_eq_zero]
                intro p hp
                have hps := (runPairs_mem_spec lim hlim gs ⟨1, tprev + g + 1⟩
                  (tprev + g + 1) hg' (le_refl _) p hp).2.2.2
                dsimp only at hps
                simp only [decide_eq_true_eq]
                intro hpm
                rcases hps with h' | h'
                · exact htm (by rw [← hpm, h'])
                · rw [hpm, ← hsm] at h'
                  linarith
              rw [hzero, if_pos hsm]
              simp only [decide_eq_true_eq, if_neg htm]
              omega
            · rw [if_neg htm] at hih
              rw [if_neg hsm]
              simp only [decide_eq_true_eq, if_neg htm]
              omega
        · rw [sendStep_plain lim s (tprev + g) hr hs]
          dsimp only
          rw [List.countP_cons]
          have hc' : s.count + 1 ≤ lim := by omega
          have hih := ih ⟨s.count + 1, s.mtime⟩ (tprev + g) m hg' ht hc'
          dsimp only at hih
          by_cases hsm : s.mtime = m
          · rw [if_pos hsm] at hih
            rw [if_pos hsm]
            simp only [hsm] at hih ⊢
            simp only [decide_eq_true_eq, eq_self_iff_true, if_true]
            omega
          · rw [if_neg hsm] at hih
            rw [if_neg hsm]
            simp only [decide_eq_true_eq, if_neg hsm]
            omega

theorem runPairs_snd_pairwise (lim : ℕ) (hlim : 1 ≤ lim) :
    ∀ (gs : List ℚ) (s : LimiterState) (tprev : ℚ),
      (∀ g ∈ gs, 0 ≤ g) → s.mtime ≤ tprev →
      (runPairs lim s tprev gs).Pairwise
        (fun p q => p.2 = q.2 ∨ p.2 + 1 ≤ q.2) := by
  intro gs
  induction gs with
  | nil =>
      intro s tprev _ _
      simp [runPairs]
  | cons g gs ih =>
      intro s tprev hg hm
      have hg0 : 0 ≤ g := hg g (List.mem_cons_self g gs)
      have hg' : ∀ g' ∈ gs, 0 ≤ g' := fun g' h => hg g' (List.mem_cons_of_mem g h)
      have ht : s.mtime ≤ tprev + g := by linarith
      have hspec := sendStep_spec lim hlim s (tprev + g) ht
      rw [runPairs_cons]
      refine List.Pairwise.cons ?_ (ih _ _ hg' hspec.1)
      intro q hq
      rcases (runPairs_mem_spec lim hlim gs _ _ hg' hspec.1 q hq).2.2.2 with h | h
      · exact Or.inl h.symm
      · exact Or.inr h

theorem runPairs_fst_pairwise (lim : ℕ) (hlim : 1 ≤ lim) :
    ∀ (gs : List ℚ) (s : LimiterState) (tprev : ℚ),
      (∀ g ∈ gs, 0 ≤ g) → s.mtime ≤ tprev →
      (runPairs lim s tprev gs).Pairwise (fun p q => p.1 ≤ q.1) := by
  intro gs
  induction gs with
  | nil =>
      intro s tprev _ _
      simp [runPairs]
  | cons g gs ih =>
      intro s tprev hg hm
      have hg0 : 0 ≤ g := hg g (List.mem_cons_self g gs)
      have hg' : ∀ g' ∈ gs, 0 ≤ g' := fun g' h => hg g' (List.mem_cons_of_mem g h)
      have ht : s.mtime ≤ tprev + g := by linarith
      have hspec := sendStep_spec lim hlim s (tprev + g) ht
      rw [runPairs_cons]
      refine List.Pairwise.cons ?_ (ih _ _ hg' hspec.1)
      intro q hq
      exact (runPairs_mem_spec lim hlim gs _ _ hg' hspec.1 q hq).2.2.1

theorem three_apart_not_in_window (a x y z : ℚ)
    (hx1 : a - 1 < x) (hx2 : x < a + 1) (hy1 : a - 1 < y) (hy2 : y < a + 1)
    (hz1 : a - 1 < z) (hz2 : z < a + 1)
    (hxy : 1 ≤ |x - y|) (hxz : 1 ≤ |x - z|) (hyz : 1 ≤ |y - z|) : False := by
  rcases le_abs.mp hxy with h1 | h1 <;>
    rcases le_abs.mp hxz with h2 | h2 <;>
      rcases le_abs.mp hyz with h3 | h3 <;> linarith

/-- C2 (amended): starting from a freshly initialised limiter, for every
sequence of sequential sends (nonnegative inter-send gaps) the limiter
admits at most `N` sends per counting window, hence at most `2·N` sends
complete within any rolling one-second window — a rolling window can
straddle the end of one counting window and the start of the next, as
the counterexample realises — and emission times are monotone: sends are
only delayed, never reordered. -/
theorem rate_limiter_rolling_window_bound (lim : ℕ) (hlim : 1 ≤ lim)
    (t0 : ℚ) (gs : List ℚ) (hg : ∀ g ∈ gs, 0 ≤ g) (a : ℚ) :
    ((emissions lim ⟨0, t0⟩ t0 gs).countP
      (fun e => decide (a ≤ e ∧ e < a + 1))) ≤ 2 * lim
    ∧ (emissions lim ⟨0, t0⟩ t0 gs).Pairwise (· ≤ ·) := by
  constructor
  · have hmain : ∀ p ∈ runPairs lim ⟨0, t0⟩ t0 gs,
        ((fun e => decide (a ≤ e ∧ e < a + 1)) ∘ Prod.fst) p = true →
          decide (a - 1 < p.2 ∧ p.2 < a + 1) = true := by
      intro p hp hcond
      have hps := runPairs_mem_spec lim hlim gs ⟨0, t0⟩ t0 hg (le_refl t0) p hp
      simp only [Function.comp, decide_eq_true_eq] at hcond ⊢
      constructor
      · linarith [hps.2.1, hcond.1]
      · linarith [hps.1, hcond.2]
    rw [emissions, List.countP_map]
    have h2 := List.countP_mono_left hmain
    have h3 := List.countP_eq_length_filter
      (fun p => decide (a - 1 < p.2 ∧ p.2 < a + 1)) (runPairs lim ⟨0, t0⟩ t0 gs)
    have hcount : ∀ m : ℚ,
        ((runPairs lim ⟨0, t0⟩ t0 gs).map Prod.snd).count m ≤ lim := by
      intro m
      have hepoch := runPairs_epoch_count lim hlim gs ⟨0, t0⟩ t0 m hg
        (le_refl t0) (Nat.zero_le lim)
      have hconv : ((runPairs lim ⟨0, t0⟩ t0 gs).map Prod.snd).count m =
          (runPairs lim ⟨0, t0⟩ t0 gs).countP (fun p => decide (p.2 = m)) := by
        rw [List.count, List.countP_map]
        apply List.countP_congr
        intro p _
        by_cases h : p.2 = m <;> simp [h, Function.comp]
      rw [hconv]
      omega
    have hTsub : (((runPairs lim ⟨0, t0⟩ t0 gs).filter
        (fun p => decide (a - 1 < p.2 ∧ p.2 < a + 1))).map Prod.snd).Sublist
          ((runPairs lim ⟨0, t0⟩ t0 gs).map Prod.snd) :=
      ((runPairs lim ⟨0, t0⟩ t0 gs).filter_sublist).map Prod.snd
    have hScount : ∀ m : ℚ,
        (((runPairs lim ⟨0, t0⟩ t0 gs).filter
          (fun p => decide (a - 1 < p.2 ∧ p.2 < a + 1))).map Prod.snd).count m
          ≤ lim :=
      fun m => le_trans (hTsub.count_le m) (hcount m)
    have hTpw := ((runPairs_snd_pairwise lim hlim gs ⟨0, t0⟩ t0 hg
      (le_refl t0)).sublist
        (@List.filter_sublist (ℚ × ℚ)
          (fun p => decide (a - 1 < p.2 ∧ p.2 < a + 1))
          (runPairs lim ⟨0, t0⟩ t0 gs)))
    have hSpw : ((((runPairs lim ⟨0, t0⟩ t0 gs).filter
        (fun p => decide (a - 1 < p.2 ∧ p.2 < a + 1))).map Prod.snd)).Pairwise
          (fun x y : ℚ => x = y ∨ 1 ≤ |x - y|) := by
      rw [List.pairwise_map]
      refine hTpw.imp ?_
      intro p q h
      rcases h with h | h
      · exact Or.inl h
      · refine Or.inr ?_
        rw [abs_sub_comm, abs_of_nonneg (by linarith)]
        linarith
    have hSym : Symmetric (fun x y : ℚ => x = y ∨ 1 ≤ |x - y|) := by
      intro x y h
      rcases h with h | h
      · exact Or.inl h.symm
      · exact Or.inr (by rwa [abs_sub_comm])
    have hfa := hSpw.forall hSym
    have hSbound : ∀ x ∈ (((runPairs lim ⟨0, t0⟩ t0 gs).filter
        (fun p => decide (a - 1 < p.2 ∧ p.2 < a + 1))).map Prod.snd),
          a - 1 < x ∧ x < a + 1 := by
      intro x hx
      rcases List.mem_map.mp hx with ⟨p, hpT, rfl⟩
      have := List.of_mem_filter hpT
      simpa using this
    have hcard : ((((runPairs lim ⟨0, t0⟩ t0 gs).filter
        (fun p => decide (a - 1 < p.2 ∧ p.2 < a + 1))).map Prod.snd)).toFinset.card
          ≤ 2 := by
      by_contra hgt
      push_neg at hgt
      rw [Finset.two_lt_card_iff] at hgt
      obtain ⟨x, y, z, hx, hy, hz, hxy, hxz, hyz⟩ := hgt
      have hxS := List.mem_toFinset.mp hx
      have hyS := List.mem_toFinset.mp hy
      have hzS := List.mem_toFinset.mp hz
      exact three_apart_not_in_window a x y z
        (hSbound x hxS).1 (hSbound x hxS).2
        (hSbound y hyS).1 (hSbound y hyS).2
        (hSbound z hzS).1 (hSbound z hzS).2
        ((hfa hxS hyS hxy).resolve_left hxy)
        ((hfa hxS hzS hxz).resolve_left hxz)
        ((hfa hyS hzS hyz).resolve_left hyz)
    have hlen : ((runPairs lim ⟨0, t0⟩ t0 gs).filter
        (fun p => decide (a - 1 < p.2 ∧ p.2 < a + 1))).length ≤ 2 * lim := by
      rw [← List.length_map _ Prod.snd]
      set S := (((runPairs lim ⟨0, t0⟩ t0 gs).filter
        (fun p => decide (a - 1 < p.2 ∧ p.2 < a + 1))).map Prod.snd) with hS
      have hsum : ∑ m in S.toFinset, S.count m = S.length := by
        have h := Multiset.toFinset_sum_count_eq (↑S : Multiset ℚ)
        simp only [Multiset.coe_count, Multiset.coe_card] at h
        exact h
      calc S.length = ∑ m in S.toFinset, S.count m := hsum.symm
        _ ≤ ∑ _m in S.toFinset, lim := Finset.sum_le_sum (fun m _ => hScount m)
        _ = S.toFinset.card * lim := by rw [Finset.sum_const, smul_eq_mul]
        _ ≤ 2 * lim := Nat.mul_le_mul_right lim hcard
    omega
  · rw [emissions, List.pairwise_map]
    exact runPairs_fst_pairwise lim hlim gs ⟨0, t0⟩ t0 hg (le_refl t0)

/-- Witness for C2 (amended): the bound and the ordering instantiated on
a single send with the default budget of ten. -/
theorem rate_limiter_rolling_window_bound_witness :
    ((emissions 10 ⟨0, 0⟩ 0 [0]).countP
      (fun e => decide (0 ≤ e ∧ e < 0 + 1))) ≤ 2 * 10
    ∧ (emissions 10 ⟨0, 0⟩ 0 [0]).Pairwise (· ≤ ·) :=
  rate_limiter_rolling_window_bound 10 (by norm_num) 0 [0]
    (by intro g hg; simp at hg; simp [hg]) 0

end WS

namespace Sig

/-- Reduction to a 32-bit word, written out as `% 2 ^ 32`. -/
def w32 (x : ℕ) : ℕ := x % 2 ^ 32

/-- 32-bit right rotation. -/
def rotr (n x : ℕ) : ℕ := w32 ((x >>> n) ||| (x <<< (32 - n)))

/-- Big-endian byte serialisation of a value into `w` bytes. -/
def beBytes : ℕ → ℕ → List ℕ
  | 0, _ => []
  | w + 1, v => beBytes w (v / 256) ++ [v % 256]

/-- SHA-256 message padding (FIPS 180-4): append `0x80`, zeros to 56 mod
64, then the bit length as eight big-endian bytes. -/
def padMessage (msg : List ℕ) : List ℕ :=
  msg ++ [0x80] ++ List.replicate ((64 - ((msg.length + 9) % 64)) % 64) 0
    ++ beBytes 8 (8 * msg.length)

/-- Big-endian 32-bit words from a byte list. -/
def toWords : List ℕ → List ℕ
  | b0 :: b1 :: b2 :: b3 :: rest =>
      (((b0 * 256 + b1) * 256 + b2) * 256 + b3) :: toWords rest
  | _ => []

/-- Split a byte list into 64-byte blocks. -/
def blocks (l : List ℕ) : List (List ℕ) :=
  if h : l = [] then []
  else l.take 64 :: blocks (l.drop 64)
termination_by l.length
decreasing_by
  have hpos : 0 < l.length := List.length_pos.mpr h
  simp only [List.length_drop]
  omega

/-- The SHA-256 logical functions (FIPS 180-4 §4.1.2). -/
def ch (x y z : ℕ) : ℕ := w32 ((x &&& y) ^^^ ((x ^^^ 0xffffffff) &&& z))

/-- Bitwise majority. -/
def maj (x y z : ℕ) : ℕ := w32 ((x &&& y) ^^^ (x &&& z) ^^^ (y &&& z))

/-- Upper-case sigma 0. -/
def bigS0 (x : ℕ) : ℕ := w32 ((rotr 2 x) ^^^ (rotr 13 x) ^^^ (rotr 22 x))

/-- Upper-case sigma 1. -/
def bigS1 (x : ℕ) : ℕ := w32 ((rotr 6 x) ^^^ (rotr 11 x) ^^^ (rotr 25 x))

/-- Lower-case sigma 0. -/
def smallS0 (x : ℕ) : ℕ := w32 ((rotr 7 x) ^^^ (rotr 18 x) ^^^ (x >>> 3))

/-- Lower-case sigma 1. -/
def smallS1 (x : ℕ) : ℕ := w32 ((rotr 17 x) ^^^ (rotr 19 x) ^^^ (x >>> 10))

/-- The SHA-256 round constants, eight rows of eight. -/
def K : List ℕ :=
  [0x428a2f98, 0x71374491, 0xb5c0fbcf, 0xe9b5dba5,
   0x3956c25b, 0x59f111f1, 0x923f82a4, 0xab1c5ed5]
  ++ [0xd807aa98, 0x12835b01, 0x243185be, 0x550c7dc3,
      0x72be5d74, 0x80deb1fe, 0x9bdc06a7, 0xc19bf174]
  ++ [0xe49b69c1, 0xefbe4786, 0x0fc19dc6, 0x240ca1cc,
      0x2de92c6f, 0x4a7484aa, 0x5cb0a9dc, 0x76f988da]
  ++ [0x983e5152, 0xa831c66d, 0xb00327c8, 0xbf597fc7,
      0xc6e00bf3, 0xd5a79147, 0x06ca6351, 0x14292967]
  ++ [0x27b70a85, 0x2e1b2138, 0x4d2c6dfc, 0x53380d13,
      0x650a7354, 0x766a0abb, 0x81c2c92e, 0x92722c85]
  ++ [0xa2bfe8a1, 0xa81a664b, 0xc24b8b70, 0xc76c51a3,
      0xd192e819, 0xd6990624, 0xf40e3585, 0x106aa070]
  ++ [0x19a4c116, 0x1e376c08, 0x2748774c, 0x34b0bcb5,
      0x391c0cb3, 0x4ed8aa4a, 0x5b9cca4f, 0x682e6ff3]
  ++ [0x748f82ee, 0x78a5636f, 0x84c87814, 0x8cc70208,
      0x90befffa, 0xa4506ceb, 0xbef9a3f7, 0xc67178f2]

/-- The eight working variables of the compression function. -/
structure Hash8 where
  a : ℕ
  b : ℕ
  c : ℕ
  d : ℕ
  e : ℕ
  f : ℕ
  g : ℕ
  h : ℕ
deriving DecidableEq, Repr

/-- The SHA-256 initial hash value. -/
def initH : Hash8 :=
  ⟨0x6a09e667, 0xbb67ae85, 0x3c6ef372, 0xa54ff53a,
   0x510e527f, 0x9b05688c, 0x1f83d9ab, 0x5be0cd19⟩

/-- Extend a 16-word schedule by `n` further words. -/
def extendSchedule (ws : List ℕ) : ℕ → List ℕ
  | 0 => ws
  | n + 1 =>
      let prev := extendSchedule ws n
      prev ++ [w32 (smallS1 (prev.getD (prev.length - 2) 0)
        + prev.getD (prev.length - 7) 0
        + smallS0 (prev.getD (prev.length - 15) 0)
        + prev.getD (prev.length - 16) 0)]

/-- One round of the SHA-256 compression function. -/
def compressStep (st : Hash8) (kw : ℕ × ℕ) : Hash8 :=
  let t1 := w32 (st.h + bigS1 st.e + ch st.e st.f st.g + kw.1 + kw.2)
  let t2 := w32 (bigS0 st.a + maj st.a st.b st.c)
  ⟨w32 (t1 + t2), st.a, st.b, st.c, w32 (st.d + t1), st.e, st.f, st.g⟩

/-- Process one 64-byte block. -/
def processBlock (hs : Hash8) (block : List ℕ) : Hash8 :=
  let ws := extendSchedule (toWords block) 48
  let st := (K.zip ws).foldl compressStep hs
  ⟨w32 (hs.a + st.a), w32 (hs.b + st.b), w32 (hs.c + st.c), w32 (hs.d + st.d),
   w32 (hs.e + st.e), w32 (hs.f + st.f), w32 (hs.g + st.g), w32 (hs.h + st.h)⟩

/-- SHA-256 of a byte list, as computed by Python `hashlib.sha256`:
32 big-endian digest bytes. -/
def sha256 (msg : List ℕ) : List ℕ :=
  let fin := (blocks (padMessage msg)).foldl processBlock initH
  beBytes 4 fin.a ++ beBytes 4 fin.b ++ beBytes 4 fin.c ++ beBytes 4 fin.d
    ++ beBytes 4 fin.e ++ beBytes 4 fin.f ++ beBytes 4 fin.g ++ beBytes 4 fin.h

/-- HMAC-SHA256 (RFC 2104), as computed by Python `hmac.new(key, msg,
sha256)`: block size 64, long keys hashed first. -/
def hmacSha256 (key msg : List ℕ) : List ℕ :=
  let k0 := if 64 < key.length then sha256 key else key
  let kpad := k0 ++ List.replicate (64 - k0.length) 0
  let ipad := kpad.map (fun b => b ^^^ 0x36)
  let opad := kpad.map (fun b => b ^^^ 0x5c)
  sha256 (opad ++ sha256 (ipad ++ msg))

/-- The byte embedding of a string; the signed strings in this code base
are ASCII, for which the code points are the UTF-8 bytes. -/
def strBytes (s : String) : List ℕ := s.data.map (fun c => c.toNat)

/-- One lower-case hexadecimal digit. -/
def hexDigitChar (n : ℕ) : Char :=
  if n < 10 then Char.ofNat (48 + n) else Char.ofNat (87 + n)

/-- Two hexadecimal digits of a byte. -/
def hexByte (b : ℕ) : List Char := [hexDigitChar (b / 16), hexDigitChar (b % 16)]

/-- Lower-case hex encoding of a byte list (Python `.hexdigest()`). -/
def hexEncode (bs : List ℕ) : String := String.mk ((bs.map hexByte).flatten)

/-- One base64 alphabet character. -/
def b64Char (n : ℕ) : Char :=
  if n < 26 then Char.ofNat (65 + n)
  else if n < 52 then Char.ofNat (97 + (n - 26))
  else if n < 62 then Char.ofNat (48 + (n - 52))
  else if n = 62 then Char.ofNat 43
  else Char.ofNat 47

/-- Standard base64 encoding of a byte list (Python `base64.b64encode`),
with `=` padding. -/
def base64Encode : List ℕ → List Char
  | [] => []
  | [b0] => [b64Char (b0 / 4), b64Char ((b0 % 4) * 16),
      Char.ofNat 61, Char.ofNat 61]
  | [b0, b1] => [b64Char (b0 / 4), b64Char ((b0 % 4) * 16 + b1 / 16),
      b64Char ((b1 % 16) * 4), Char.ofNat 61]
  | b0 :: b1 :: b2 :: rest =>
      b64Char (b0 / 4) :: b64Char ((b0 % 4) * 16 + b1 / 16)
        :: b64Char ((b1 % 16) * 4 + b2 / 64) :: b64Char (b2 % 64)
        :: base64Encode rest

/-- One decimal digit character. -/
def digitChar (d : ℕ) : Char := Char.ofNat (48 + d)

/-- The decimal string of a natural number, as produced by Python
`str(...)` or an f-string on a nonnegative int. -/
def natStr (n : ℕ) : String :=
  if n = 0 then String.mk [digitChar 0]
  else String.mk (((Nat.digits 10 n).reverse).map digitChar)

theorem beBytes_length (w v : ℕ) : (beBytes w v).length = w := by
  induction w generalizing v with
  | zero => rfl
  | succ w ih => simp [beBytes, ih]

theorem beBytes_lt (w v : ℕ) : ∀ b ∈ beBytes w v, b < 256 := by
  induction w generalizing v with
  | zero =>
      intro b hb
      simp [beBytes] at hb
  | succ w ih =>
      intro b hb
      simp only [beBytes, List.mem_append, List.mem_singleton] at hb
      rcases hb with hb | rfl
      · exact ih _ b hb
      · exact Nat.mod_lt _ (by norm_num)

theorem sha256_length (msg : List ℕ) : (sha256 msg).length = 32 := by
  simp [sha256, beBytes_length]

theorem sha256_lt (msg : List ℕ) : ∀ b ∈ sha256 msg, b < 256 := by
  intro b hb
  simp only [sha256, List.mem_append] at hb
  rcases hb with ((((((hb | hb) | hb) | hb) | hb) | hb) | hb) | hb <;>
    exact beBytes_lt _ _ b hb

theorem hmacSha256_length (key msg : List ℕ) :
    (hmacSha256 key msg).length = 32 := by
  simp [hmacSha256, sha256_length]

theorem hmacSha256_lt (key msg : List ℕ) :
    ∀ b ∈ hmacSha256 key msg, b < 256 := by
  intro b hb
  exact sha256_lt _ b (by simpa [hmacSha256] using hb)

theorem digitChar_inj :
    ∀ d1 < 10, ∀ d2 < 10, digitChar d1 = digitChar d2 → d1 = d2 := by decide

theorem map_digitChar_inj : ∀ (l1 l2 : List ℕ),
    (∀ d ∈ l1, d < 10) → (∀ d ∈ l2, d < 10) →
    l1.map digitChar = l2.map digitChar → l1 = l2 := by
  intro l1
  induction l1 with
  | nil =>
      intro l2 _ _ h
      cases l2 with
      | nil => rfl
      | cons e l2 => simp at h
  | cons d l ih =>
      intro l2 h1 h2 h
      cases l2 with
      | nil => simp at h
      | cons e l2 =>
          simp only [List.map_cons, List.cons.injEq] at h
          have hd : d = e := digitChar_inj d (h1 d (List.mem_cons_self d l)) e
            (h2 e (List.mem_cons_self e l2)) h.1
          rw [hd, ih l2 (fun x hx => h1 x (List.mem_cons_of_mem d hx))
            (fun x hx => h2 x (List.mem_cons_of_mem e hx)) h.2]

theorem natStr_injective : Function.Injective natStr := by
  intro m n h
  unfold natStr at h
  by_cases hm : m = 0 <;> by_cases hn : n = 0
  · rw [hm, hn]
  · rw [if_pos hm, if_neg hn] at h
    have hdata : [digitChar 0] = ((Nat.digits 10 n).reverse).map digitChar :=
      congrArg String.data h
    have hrev : [0] = (Nat.digits 10 n).reverse :=
      map_digitChar_inj [0] _ (by simp)
        (fun d hd => Nat.digits_lt_base (by norm_num) (List.mem_reverse.mp hd))
        hdata
    have hdig : Nat.digits 10 n = [0] := by
      rw [← List.reverse_reverse (Nat.digits 10 n), ← hrev]
      rfl
    have hval := Nat.ofDigits_digits 10 n
    rw [hdig] at hval
    simp [Nat.ofDigits] at hval
    exact absurd hval.symm hn
  · rw [if_neg hm, if_pos hn] at h
    have hdata : ((Nat.digits 10 m).reverse).map digitChar = [digitChar 0] :=
      congrArg String.data h
    have hrev : (Nat.digits 10 m).reverse = [0] :=
      map_digitChar_inj _ [0]
        (fun d hd => Nat.digits_lt_base (by norm_num) (List.mem_reverse.mp hd))
        (by simp) hdata
    have hdig : Nat.digits 10 m = [0] := by
      rw [← List.reverse_reverse (Nat.digits 10 m), hrev]
      rfl
    have hval := Nat.ofDigits_digits 10 m
    rw [hdig] at hval
    simp [Nat.ofDigits] at hval
    exact absurd hval.symm hm
  · rw [if_neg hm, if_neg hn] at h
    have hdata : ((Nat.digits 10 m).reverse).map digitChar =
        ((Nat.digits 10 n).reverse).map digitChar := congrArg String.data h
    have hrev := map_digitChar_inj _ _
      (fun d hd => Nat.digits_lt_base (by norm_num) (List.mem_reverse.mp hd))
      (fun d hd => Nat.digits_lt_base (by norm_num) (List.mem_reverse.mp hd))
      hdata
    have hdig : Nat.digits 10 m = Nat.digits 10 n :=
      List.reverse_injective hrev
    have := congrArg (Nat.ofDigits 10) hdig
    rwa [Nat.ofDigits_digits, Nat.ofDigits_digits] at this

/-- Insertion into a key-sorted association list. -/
def insertSorted (p : String × String) :
    List (String × String) → List (String × String)
  | [] => [p]
  | q :: l => if p.1 ≤ q.1 then p :: q :: l else q :: insertSorted p l

/-- `sorted(params.items(), key=lambda x: x[0])`. -/
def sortByKey (l : List (String × String)) : List (String × String) :=
  l.foldr insertSorted []

/-- The fixed part of the REST signature payload: sorted `key=value`
pairs joined with `&`. -/
def restPayloadBase (params : List (String × String)) : String :=
  String.intercalate "&" ((sortByKey params).map (fun p => p.1 ++ "=" ++ p.2))

/-- The full REST signature payload of
`BybitClientV2._generate_signature`: the sorted pairs, then the explicit
`&timestamp=<timestamp>` field. -/
def restPayload (params : List (String × String)) (timestamp : ℕ) : String :=
  restPayloadBase params ++ "&timestamp=" ++ natStr timestamp

/-- `BybitClientV2._generate_signature`: HMAC-SHA256 of the payload
under the secret key, hex-encoded. -/
def restSignature (secret : String) (params : List (String × String))
    (timestamp : ℕ) : String :=
  hexEncode (hmacSha256 (strBytes secret) (strBytes (restPayload params timestamp)))

/-- The websocket login message of
`BybitWebsocketClient._generate_signature`:
`str(int(time.time())) + 'GET' + '/user/verify'`. -/
def wsMessage (timestamp : ℕ) : String :=
  natStr timestamp ++ "GET" ++ "/user/verify"

/-- `BybitWebsocketClient._generate_signature`: HMAC-SHA256 of the login
message, base64-encoded. -/
def wsSignature (secret : String) (timestamp : ℕ) : String :=
  String.mk (base64Encode (hmacSha256 (strBytes secret) (strBytes (wsMessage timestamp))))

/-- The REST-signature digest at a timestamp, packed as a function into
a finite type (32 bytes, each below 256). -/
def restDigestFin (secret : String) (params : List (String × String))
    (t : ℕ) : Fin 32 → Fin 256 :=
  fun i =>
    ⟨(hmacSha256 (strBytes secret) (strBytes (restPayload params t))).getD i 0 % 256,
      Nat.mod_lt _ (by norm_num)⟩

theorem getD_lt_of_all_lt (d : List ℕ) (i : ℕ) (hi : i < d.length)
    (hb : ∀ b ∈ d, b < 256) : d.getD i 0 < 256 := by
  rw [List.getD_eq_getElem?_getD, List.getElem?_eq_getElem hi]
  exact hb _ (List.getElem_mem hi)

theorem digest_eq_of_getD_eq (d1 d2 : List ℕ) (h1 : d1.length = 32)
    (h2 : d2.length = 32) (h : ∀ i : Fin 32, d1.getD i 0 = d2.getD i 0) :
    d1 = d2 := by
  apply List.ext_getElem (by rw [h1, h2])
  intro i hi1 hi2
  have hi : i < 32 := by omega
  have hgd := h ⟨i, hi⟩
  rwa [List.getD_eq_getElem?_getD, List.getElem?_eq_getElem hi1,
    List.getD_eq_getElem?_getD, List.getElem?_eq_getElem hi2] at hgd

/-- Counterexample to C7 as stated: there exist two different timestamps
whose REST signatures under a fixed secret and identical (empty)
parameters coincide. The timestamps range over an infinite set while
HMAC-SHA256 digests form a finite set, so by pigeonhole the map cannot
be injective — "two different timestamps yield two different signatures"
is false as a universal statement. -/
theorem signature_collision_exists :
    ∃ t1 t2 : ℕ, t1 ≠ t2 ∧
      restSignature "secret" [] t1 = restSignature "secret" [] t2 := by
  obtain ⟨t1, t2, hne, heq⟩ :=
    Finite.exists_ne_map_eq_of_infinite (restDigestFin "secret" [])
  refine ⟨t1, t2, hne, ?_⟩
  unfold restSignature
  congr 1
  apply digest_eq_of_getD_eq _ _ (hmacSha256_length _ _) (hmacSha256_length _ _)
  intro i
  have hi := congrFun heq i
  unfold restDigestFin at hi
  have hv := congrArg Fin.val hi
  dsimp only at hv
  have hl1 : (i : ℕ) <
      (hmacSha256 (strBytes "secret") (strBytes (restPayload [] t1))).length := by
    rw [hmacSha256_length]
    exact i.isLt
  have hl2 : (i : ℕ) <
      (hmacSha256 (strBytes "secret") (strBytes (restPayload [] t2))).length := by
    rw [hmacSha256_length]
    exact i.isLt
  have hb1 := getD_lt_of_all_lt _ i hl1 (hmacSha256_lt _ _)
  have hb2 := getD_lt_of_all_lt _ i hl2 (hmacSha256_lt _ _)
  rwa [Nat.mod_eq_of_lt hb1, Nat.mod_eq_of_lt hb2] at hv

/-- C7 (amended): signature generation is reproducible — the signers are
functions of secret, parameters and timestamp alone — and for identical
parameters at two different timestamps the signature *inputs* differ
only via the trailing timestamp field and are themselves distinct
strings, both for the REST signer and for the websocket login signer.
(The hashed signatures themselves are not guaranteed distinct, since
HMAC-SHA256 is not injective.) -/
theorem signature_inputs_differ_only_in_timestamp
    (secret : String) (params : List (String × String)) (t1 t2 : ℕ)
    (hne : t1 ≠ t2) :
    restSignature secret params t1 =
      hexEncode (hmacSha256 (strBytes secret) (strBytes (restPayload params t1)))
    ∧ restPayload params t1 = restPayloadBase params ++ "&timestamp=" ++ natStr t1
    ∧ restPayload params t2 = restPayloadBase params ++ "&timestamp=" ++ natStr t2
    ∧ restPayload params t1 ≠ restPayload params t2
    ∧ wsMessage t1 ≠ wsMessage t2 := by
  refine ⟨rfl, rfl, rfl, ?_, ?_⟩
  · intro h
    apply hne
    apply natStr_injective
    have hd := congrArg String.data h
    simp only [restPayload, String.data_append] at hd
    have := List.append_cancel_left hd
    exact congrArg String.mk this
  · intro h
    apply hne
    apply natStr_injective
    have hd := congrArg String.data h
    simp only [wsMessage, String.data_append] at hd
    have := List.append_cancel_right (List.append_cancel_right hd)
    exact congrArg String.mk this

/-- Witness for C7 (amended): at timestamps 1 and 2 with empty
parameters, the payloads and login messages are distinct. -/
theorem signature_inputs_witness :
    restPayload [] 1 ≠ restPayload [] 2 ∧ Sig.wsMessage 1 ≠ Sig.wsMessage 2 :=
  let h := signature_inputs_differ_only_in_timestamp "secret" [] 1 2 (by decide)
  ⟨h.2.2.2.1, h.2.2.2.2⟩

end Sig

namespace Bitget

/-- The API credentials held by `BitgetAPI`. -/
structure Credentials where
  apiKey : String
  secretKey : String
  passphrase : String
deriving DecidableEq, Repr

/-- `BitgetAPI.BASE_URL`. -/
def baseUrl : String := "https://api.bitget.com"

/-- `BitgetAPI._generate_signature`: base64 of the HMAC-SHA256 of
`timestamp + method + request_path + body` under the secret key. -/
def generateSignature (cred : Credentials)
    (timestamp method requestPath body : String) : String :=
  String.mk (Sig.base64Encode (Sig.hmacSha256 (Sig.strBytes cred.secretKey)
    (Sig.strBytes (timestamp ++ method ++ requestPath ++ body))))

/-- Insertion into a sorted string list. -/
def insertSortedStr (x : String) : List String → List String
  | [] => [x]
  | y :: l => if x ≤ y then x :: y :: l else y :: insertSortedStr x l

/-- `sorted(...)` on a list of strings. -/
def sortStrings (l : List String) : List String := l.foldr insertSortedStr []

/-- The query canonicalisation of `_create_headers`: when the request
path carries a query, sort its `&`-separated parameters. -/
def canonicalPath (requestPath : String) : String :=
  match requestPath.splitOn "?" with
  | [base, query] =>
      base ++ "?" ++ String.intercalate "&" (sortStrings (query.splitOn "&"))
  | _ => requestPath

/-- `BitgetAPI._create_headers`: millisecond timestamp, canonicalised
path, signature over the upper-cased method, and the fixed header set. -/
def createHeaders (cred : Credentials) (nowMs : ℕ)
    (method requestPath body : String) : List (String × String) :=
  let timestamp := Sig.natStr nowMs
  let path := canonicalPath requestPath
  let signature := generateSignature cred timestamp method.toUpper path body
  [("ACCESS-KEY", cred.apiKey),
   ("ACCESS-SIGN", signature),
   ("ACCESS-TIMESTAMP", timestamp),
   ("ACCESS-PASSPHRASE", cred.passphrase),
   ("Content-Type", "application/json"),
   ("ACCESS-VERSION", "2")]

/-- `urlencode(sorted(params.items()))`, with the values of this code
base needing no percent-escaping. -/
def urlencode (params : List (String × String)) : String :=
  String.intercalate "&" ((Sig.sortByKey params).map (fun p => p.1 ++ "=" ++ p.2))

/-- The full request handed to the `aiohttp` session by `_request`. -/
structure WireRequest (δ : Type) where
  method : String
  url : String
  headers : List (String × String)
  body : Option δ

/-- A transport oracle: the behaviour of the network for one request —
either an exception (socket drop, timeout, malformed body) or an HTTP
status paired with the parsed JSON body. -/
def Transport (δ β : Type) := WireRequest δ → Except String (ℕ × β)

/-- `BitgetAPI._request`: build the query string from the sorted params,
the URL, and the signed headers (over `json.dumps(data)` — the `dumps`
argument — when a body is present); perform the call; catch every
exception and return `None` for it; otherwise return the parsed response
body whatever the HTTP status (non-200 is only logged). -/
def request {δ β : Type} (cred : Credentials) (nowMs : ℕ)
    (transport : Transport δ β) (dumps : δ → String)
    (method endpoint : String) (params : Option (List (String × String)))
    (data : Option δ) : Option β :=
  let query := match params with
    | some ps => "?" ++ urlencode ps
    | none => ""
  let url := baseUrl ++ endpoint ++ query
  let headers := createHeaders cred nowMs method (endpoint ++ query)
    (match data with
     | some d => dumps d
     | none => "")
  match transport ⟨method, url, headers, data⟩ with
  | .error _ => none
  | .ok (_, body) => some body

/-- One entry of the `single-position` response data, with the numeric
string fields embedded as the rational values they denote and string
fields kept as strings; a missing field is its `.get(…)` default. -/
structure PosData where
  total : ℚ
  holdSide : String
  openPriceAvg : ℚ
  leverage : ℤ
  breakEvenPrice : ℚ
  unrealizedPL : ℚ
  marginSize : ℚ
  available : ℚ
  locked : ℚ
  liquidationPrice : ℚ
  marginRatio : ℚ
  markPrice : ℚ
  achievedProfits : ℚ
  totalFee : ℚ
  marginMode : String
deriving DecidableEq, Repr

/-- The parsed body of the `single-position` endpoint: the response
`code` and the `data` list (a missing or empty `data` is the empty
list, which Python treats as falsy). -/
structure PosResponse where
  code : String
  data : List PosData
deriving DecidableEq, Repr

/-- Modelled from the spec: the `Position` read model of `models.py`
(not under `src/`), with exactly the fields populated at the
construction site in `get_position`. -/
structure Position where
  symbol : String
  side : String
  size : ℚ
  entry_price : ℚ
  stop_loss_price : ℚ
  take_profit_price : ℚ
  timestamp : ℕ
  leverage : ℤ
  break_even_price : ℚ
  unrealized_pl : ℚ
  margin_size : ℚ
  available : ℚ
  locked : ℚ
  liquidation_price : ℚ
  margin_ratio : ℚ
  mark_price : ℚ
  achieved_profits : ℚ
  total_fee : ℚ
  margin_mode : String
deriving DecidableEq, Repr

/-- Build the Position from one position-data entry, as at the
construction site in `get_position`. -/
def mkPosition (symbol : String) (nowMs : ℕ) (pd : PosData) : Position :=
  { symbol := symbol
    side := if pd.holdSide = "long" then "long" else "short"
    size := pd.total
    entry_price := pd.openPriceAvg
    stop_loss_price := 0
    take_profit_price := 0
    timestamp := nowMs
    leverage := pd.leverage
    break_even_price := pd.breakEvenPrice
    unrealized_pl := pd.unrealizedPL
    margin_size := pd.marginSize
    available := pd.available
    locked := pd.locked
    liquidation_price := pd.liquidationPrice
    margin_ratio := pd.marginRatio
    mark_price := pd.markPrice
    achieved_profits := pd.achievedProfits
    total_fee := pd.totalFee
    margin_mode := pd.marginMode }

/-- The response handling of `get_position`: a Position is populated
only when the response arrived, its code is `00000`, its data is
non-empty, and the first entry reports a strictly positive `total`;
otherwise the result is `None`. -/
def positionOfResponse (symbol : String) (nowMs : ℕ) :
    Option PosResponse → Option Position
  | none => none
  | some r =>
      if r.code = "00000" then
        match r.data with
        | [] => none
        | pd :: _ => if 0 < pd.total then some (mkPosition symbol nowMs pd) else none
      else none

/-- `BitgetAPI.get_position`: query `single-position` with the fixed
parameter set and parse the result. -/
def get_position {δ : Type} (cred : Credentials) (nowMs : ℕ)
    (transport : Transport δ PosResponse) (dumps : δ → String)
    (symbol : String) : Option Position :=
  positionOfResponse symbol nowMs
    (request cred nowMs transport dumps "GET"
      "/api/v2/mix/position/single-position"
      (some [("symbol", symbol), ("marginMode", "crossed"),
        ("productType", "USDT-FUTURES"), ("marginCoin", "USDT")])
      none)

/-- Python `round` on a real value: round half to even, to an integer. -/
def pyRound (x : ℚ) : ℤ :=
  if x - ⌊x⌋ < 1/2 then ⌊x⌋
  else if 1/2 < x - ⌊x⌋ then ⌊x⌋ + 1
  else if Even ⌊x⌋ then ⌊x⌋ else ⌊x⌋ + 1

/-- `round(float(p) * 10) / 10`: the tick normalisation applied by
`place_order` and `place_tpsl_order`. -/
def normalizeTick (p : ℚ) : ℚ := (pyRound (p * 10) : ℚ) / 10

/-- The `order_type_mapping` dict of `place_order`. -/
def orderTypeMapping : List (String × String) :=
  [("market", "market"), ("limit", "limit"), ("stop", "profit_stop")]

/-- `order_type_mapping.get(order_type, 'limit')`. -/
def mapOrderType (t : String) : String :=
  ((orderTypeMapping.find? (fun p => p.1 = t)).map (fun p => p.2)).getD "limit"

/-- The request body built by `place_order`; the optional price fields
carry the rational value of the decimal string submitted. -/
structure OrderBody where
  symbol : String
  productType : String
  marginMode : String
  marginCoin : String
  side : String
  tradeSide : String
  orderType : String
  size : String
  price : Option ℚ
  triggerPrice : Option ℚ
  holdSide : Option String
deriving DecidableEq, Repr

/-- The body construction of `BitgetAPI.place_order`: normalise any
supplied price and trigger price to one decimal, map the order type
through the fixed table with default `limit`, and attach `price` only
for limit orders, `triggerPrice` and `holdSide` only for stop orders. -/
def placeOrderBody (symbol side trade_side size margin_coin order_type : String)
    (price trigger_price : Option ℚ) : OrderBody :=
  let price1 := price.map normalizeTick
  let trigger1 := trigger_price.map normalizeTick
  { symbol := symbol
    productType := "USDT-FUTURES"
    marginMode := "crossed"
    marginCoin := margin_coin
    side := side
    tradeSide := trade_side
    orderType := mapOrderType order_type
    size := size
    price := if order_type = "limit" ∧ price1.isSome then price1 else none
    triggerPrice := if order_type = "stop" ∧ trigger1.isSome then trigger1 else none
    holdSide := if order_type = "stop" ∧ trigger1.isSome then
        some (if side = "buy" then "short" else "long")
      else none }

/-- `BitgetAPI.place_order`: POST the built body to the order endpoint. -/
def place_order {β : Type} (cred : Credentials) (nowMs : ℕ)
    (transport : Transport OrderBody β) (dumps : OrderBody → String)
    (symbol side trade_side size margin_coin order_type : String)
    (price trigger_price : Option ℚ) : Option β :=
  request cred nowMs transport dumps "POST" "/api/v2/mix/order/place-order"
    none (some (placeOrderBody symbol side trade_side size margin_coin
      order_type price trigger_price))

/-- The request body built by `place_tpsl_order`. -/
structure TpslBody where
  symbol : String
  marginCoin : String
  productType : String
  planType : String
  triggerPrice : ℚ
  triggerType : String
  executePrice : String
  holdSide : String
  size : String
deriving DecidableEq, Repr

/-- `BitgetAPI.place_tpsl_order`: mark-price-triggered TP/SL attachment. -/
def place_tpsl_order {β : Type} (cred : Credentials) (nowMs : ℕ)
    (transport : Transport TpslBody β) (dumps : TpslBody → String)
    (symbol plan_type : String) (trigger_price : ℚ)
    (hold_side size execute_price : String) : Option β :=
  request cred nowMs transport dumps "POST" "/api/v2/mix/order/place-tpsl-order"
    none (some
      { symbol := symbol.toUpper
        marginCoin := "USDT"
        productType := "USDT-FUTURES"
        planType := plan_type
        triggerPrice := normalizeTick trigger_price
        triggerType := "mark_price"
        executePrice := execute_price
        holdSide := hold_side
        size := size })

/-- `BitgetAPI.close_position`: market-price flatten of the position. -/
def close_position {β : Type} (cred : Credentials) (nowMs : ℕ)
    (transport : Transport (List (String × String)) β)
    (dumps : List (String × String) → String)
    (symbol margin_coin : String) : Option β :=
  request cred nowMs transport dumps "POST" "/api/v2/mix/order/close-positions"
    none (some [("symbol", symbol), ("marginCoin", margin_coin),
      ("productType", "USDT-FUTURES")])

/-- `BitgetAPI.cancel_order`. -/
def cancel_order {β : Type} (cred : Credentials) (nowMs : ℕ)
    (transport : Transport (List (String × String)) β)
    (dumps : List (String × String) → String)
    (symbol order_id : String) : Option β :=
  request cred nowMs transport dumps "POST" "/api/v2/mix/order/cancel-order"
    none (some [("symbol", symbol), ("orderId", order_id)])

/-- `BitgetAPI.get_order_detail`. -/
def get_order_detail {δ β : Type} (cred : Credentials) (nowMs : ℕ)
    (transport : Transport δ β) (dumps : δ → String)
    (symbol order_id : String) : Option β :=
  request cred nowMs transport dumps "GET" "/api/v2/mix/order/detail"
    (some [("symbol", symbol), ("orderId", order_id)]) none

/-- `BitgetAPI.get_pending_orders`: the fixed params plus the optional
symbol and status filters. -/
def get_pending_orders {δ β : Type} (cred : Credentials) (nowMs : ℕ)
    (transport : Transport δ β) (dumps : δ → String)
    (symbol status : Option String) (limit : String) : Option β :=
  request cred nowMs transport dumps "GET" "/api/v2/mix/order/orders-pending"
    (some ([("productType", "USDT-FUTURES"), ("limit", limit)]
      ++ (match symbol with
          | some s => [("symbol", s)]
          | none => [])
      ++ (match status with
          | some s => [("status", s)]
          | none => [])))
    none

/-- One pending order as read by the sweep: the `orderId` (the empty
string embeds a missing or empty id — both falsy in Python) and the
`cTime` creation timestamp in milliseconds. -/
structure PendingOrder where
  orderId : String
  cTime : ℤ
deriving DecidableEq, Repr

/-- The parsed body of `orders-pending`: the response code and
`data.entrustedList`; missing pieces default to the empty list. -/
structure PendingResponse where
  code : String
  entrustedList : List PendingOrder
deriving DecidableEq, Repr

/-- The per-order loop of `cancel_all_pending_orders`: cancel every
order with a truthy id whose age `now − cTime` reaches the 30-second
threshold, appending each cancel result (failures included); younger
orders are only logged. The second component records the ids actually
cancelled — the network calls made. -/
def cancelSweepLoop {β : Type} (nowMs : ℤ) (cancel : String → Option β) :
    List PendingOrder → List (Option β) × List String
  | [] => ([], [])
  | o :: os =>
      if o.orderId ≠ "" ∧ 30 * 1000 ≤ nowMs - o.cTime then
        let rest := cancelSweepLoop nowMs cancel os
        (cancel o.orderId :: rest.1, o.orderId :: rest.2)
      else cancelSweepLoop nowMs cancel os

/-- `BitgetAPI.cancel_all_pending_orders` after the initial fetch (the
`get_pending_orders` response): no results when the fetch failed or its
code is not 00000; immediate return on an empty pending list; otherwise
the sweep loop. -/
def cancel_all_pending_orders {β : Type} (nowMs : ℤ)
    (fetch : Option PendingResponse) (cancel : String → Option β) :
    List (Option β) × List String :=
  match fetch with
  | none => ([], [])
  | some r =>
      if r.code = "00000" then
        if r.entrustedList = [] then ([], [])
        else cancelSweepLoop nowMs cancel r.entrustedList
      else ([], [])

theorem cancelSweepLoop_spec {β : Type} (nowMs : ℤ)
    (cancel : String → Option β) :
    ∀ (os : List PendingOrder), (∀ o ∈ os, o.orderId ≠ "") →
      cancelSweepLoop nowMs cancel os =
        ((os.filter (fun o => decide (30 * 1000 ≤ nowMs - o.cTime))).map
          (fun o => cancel o.orderId),
         (os.filter (fun o => decide (30 * 1000 ≤ nowMs - o.cTime))).map
          (fun o => o.orderId)) := by
  intro os
  induction os with
  | nil => intro _; rfl
  | cons o os ih =>
      intro hids
      have ho := hids o (List.mem_cons_self o os)
      have ihr := ih (fun x hx => hids x (List.mem_cons_of_mem o hx))
      by_cases hage : 30 * 1000 ≤ nowMs - o.cTime
      · have hage2 : (30000 : ℤ) ≤ nowMs - o.cTime := by omega
        simp [cancelSweepLoop, List.filter_cons, ho, hage2, ihr]
      · have hage2 : ¬ (30000 : ℤ) ≤ nowMs - o.cTime := by omega
        simp [cancelSweepLoop, List.filter_cons, ho, hage2, ihr]

/-- C3: for every fetched pending-order list (each order carrying an
id, as the exchange assigns one on acceptance), the stale-order sweep
cancels exactly the orders whose age `now − cTime` is at least the
30-second threshold, leaves every younger order untouched, and returns
the list of cancellation results including failures (the `None` results
of failed cancels are kept); an empty pending list returns immediately
with no cancel calls. -/
theorem stale_sweep_exact {β : Type} (nowMs : ℤ) (r : PendingResponse)
    (cancel : String → Option β) (hcode : r.code = "00000")
    (hids : ∀ o ∈ r.entrustedList, o.orderId ≠ "") :
    (cancel_all_pending_orders nowMs (some r) cancel).2 =
      (r.entrustedList.filter
        (fun o => decide (30 * 1000 ≤ nowMs - o.cTime))).map (fun o => o.orderId)
    ∧ (cancel_all_pending_orders nowMs (some r) cancel).1 =
      (r.entrustedList.filter
        (fun o => decide (30 * 1000 ≤ nowMs - o.cTime))).map
          (fun o => cancel o.orderId)
    ∧ (r.entrustedList = [] →
        cancel_all_pending_orders nowMs (some r) cancel = ([], [])) := by
  by_cases hemp : r.entrustedList = []
  · refine ⟨?_, ?_, fun _ => ?_⟩ <;>
      simp [cancel_all_pending_orders, hcode, hemp]
  · have hl := cancelSweepLoop_spec nowMs cancel r.entrustedList hids
    refine ⟨?_, ?_, fun h => absurd h hemp⟩ <;>
      simp [cancel_all_pending_orders, hcode, hemp, hl]

/-- Sample pending list for the witness: at `now = 100000` ms the three
orders are 10 s, 31 s and 45 s old. -/
def demoPending : PendingResponse :=
  ⟨"00000", [⟨"A", 90000⟩, ⟨"B", 69000⟩, ⟨"C", 55000⟩]⟩

/-- Witness for C3: with ages 10 s, 31 s, 45 s and the 30-second
threshold, exactly the two stale orders are cancelled. -/
theorem stale_sweep_exact_witness :
    (cancel_all_pending_orders (100000 : ℤ) (some demoPending)
      (fun oid => some oid)).2 = ["B", "C"] := by
  have h := stale_sweep_exact (100000 : ℤ) demoPending
    (fun oid => some oid) rfl (by decide)
  rw [h.1]
  decide

theorem request_error {δ β : Type} (cred : Credentials) (nowMs : ℕ)
    (tr : Transport δ β) (dumps : δ → String) (method endpoint : String)
    (params : Option (List (String × String))) (data : Option δ)
    (e : String) (h : ∀ w, tr w = .error e) :
    request cred nowMs tr dumps method endpoint params data = none := by
  unfold request
  simp only [h]

theorem request_ok {δ β : Type} (cred : Credentials) (nowMs : ℕ)
    (tr : Transport δ β) (dumps : δ → String) (method endpoint : String)
    (params : Option (List (String × String))) (data : Option δ)
    (status : ℕ) (b : β) (h : ∀ w, tr w = .ok (status, b)) :
    request cred nowMs tr dumps method endpoint params data = some b := by
  unfold request
  simp only [h]

/-- C5: whenever the single-position query comes back with code 00000
and a data entry, `get_position` returns a populated Position exactly
when the reported size (`total`) is strictly positive, and null when it
is zero; the populated Position maps `holdSide = "long"` to side `long`
and every other value to `short`, and carries the reported size. -/
theorem get_position_size_gate {δ : Type} (cred : Credentials) (nowMs : ℕ)
    (transport : Transport δ PosResponse) (dumps : δ → String)
    (symbol : String) (status : ℕ) (r : PosResponse) (pd : PosData)
    (rest : List PosData) (htr : ∀ w, transport w = .ok (status, r))
    (hcode : r.code = "00000") (hdata : r.data = pd :: rest) :
    get_position cred nowMs transport dumps symbol =
      (if 0 < pd.total then some (mkPosition symbol nowMs pd) else none)
    ∧ (mkPosition symbol nowMs pd).side =
        (if pd.holdSide = "long" then "long" else "short")
    ∧ (mkPosition symbol nowMs pd).size = pd.total := by
  refine ⟨?_, rfl, rfl⟩
  unfold get_position
  rw [request_ok cred nowMs transport dumps _ _ _ _ status r htr]
  simp [positionOfResponse, hcode, hdata]

/-- Sample credentials for witnesses. -/
def demoCred : Credentials := ⟨"key", "secret", "pass"⟩

/-- Sample position data: size five, held long. -/
def demoPosData : PosData :=
  ⟨5, "long", 100, 10, 0, 0, 0, 0, 0, 0, 0, 0, 0, 0, "crossed"⟩

/-- Witness for C5: a successful query reporting size five yields the
populated Position. -/
theorem get_position_size_gate_witness :
    get_position demoCred 1000
        (fun _ : WireRequest Unit => Except.ok (200, PosResponse.mk "00000" [demoPosData]))
        (fun _ : Unit => "") "BTCUSDT" =
      (if 0 < demoPosData.total then some (mkPosition "BTCUSDT" 1000 demoPosData)
        else none) :=
  (get_position_size_gate demoCred 1000 _ _ "BTCUSDT" 200 _ demoPosData []
    (fun _ => rfl) rfl rfl).1

/-- C10: `get_position` returns null not only for a flat position but
also on transport failure, on a non-success response code, and on empty
response data; the error-case and flat-case results are the same `None`,
so from the return value alone a caller cannot tell a flat position from
a failed query. -/
theorem get_position_null_ambiguity {δ : Type} (cred : Credentials)
    (nowMs : ℕ) (dumps : δ → String) (symbol : String)
    (tErr tFlat : Transport δ PosResponse) (e : String) (status : ℕ)
    (r : PosResponse) (pd : PosData) (rest : List PosData)
    (herr : ∀ w, tErr w = .error e)
    (hflat : ∀ w, tFlat w = .ok (status, r))
    (hcode : r.code = "00000") (hdata : r.data = pd :: rest)
    (hzero : pd.total = 0) :
    get_position cred nowMs tErr dumps symbol = none
    ∧ get_position cred nowMs tFlat dumps symbol = none
    ∧ get_position cred nowMs tErr dumps symbol =
        get_position cred nowMs tFlat dumps symbol
    ∧ (∀ (tr : Transport δ PosResponse) (st2 : ℕ) (r2 : PosResponse),
        (∀ w, tr w = .ok (st2, r2)) → r2.code ≠ "00000" →
        get_position cred nowMs tr dumps symbol = none)
    ∧ (∀ (tr : Transport δ PosResponse) (st2 : ℕ) (r2 : PosResponse),
        (∀ w, tr w = .ok (st2, r2)) → r2.data = [] →
        get_position cred nowMs tr dumps symbol = none) := by
  have h1 : get_position cred nowMs tErr dumps symbol = none := by
    unfold get_position
    rw [request_error cred nowMs tErr dumps _ _ _ _ e herr]
    rfl
  have h2 : get_position cred nowMs tFlat dumps symbol = none := by
    unfold get_position
    rw [request_ok cred nowMs tFlat dumps _ _ _ _ status r hflat]
    simp [positionOfResponse, hcode, hdata, hzero]
  refine ⟨h1, h2, h1.trans h2.symm, ?_, ?_⟩
  · intro tr st2 r2 htr hc
    unfold get_position
    rw [request_ok cred nowMs tr dumps _ _ _ _ st2 r2 htr]
    simp [positionOfResponse, hc]
  · intro tr st2 r2 htr hd
    unfold get_position
    rw [request_ok cred nowMs tr dumps _ _ _ _ st2 r2 htr]
    simp [positionOfResponse, hd]

/-- Flat sample position data: size zero. -/
def demoFlatPosData : PosData :=
  ⟨0, "long", 100, 10, 0, 0, 0, 0, 0, 0, 0, 0, 0, 0, "crossed"⟩

/-- Witness for C10: a timed-out query and a flat-position query both
return `None`. -/
theorem get_position_null_ambiguity_witness :
    get_position demoCred 1000
        (fun _ : WireRequest Unit => (Except.error "timeout" : Except String (ℕ × PosResponse)))
        (fun _ : Unit => "") "BTCUSDT" = none
    ∧ get_position demoCred 1000
        (fun _ : WireRequest Unit => Except.ok (200, PosResponse.mk "00000" [demoFlatPosData]))
        (fun _ : Unit => "") "BTCUSDT" = none :=
  let h := get_position_null_ambiguity demoCred 1000 (fun _ : Unit => "")
    "BTCUSDT" _ _ "timeout" 200 (PosResponse.mk "00000" [demoFlatPosData])
    demoFlatPosData [] (fun _ => rfl) (fun _ => rfl) rfl rfl rfl
  ⟨h.1, h.2.1⟩

/-- C6: every order-gateway operation — `place_order`,
`place_tpsl_order`, `close_position`, `cancel_order`,
`get_order_detail`, `get_pending_orders`, `get_position` — returns the
parsed response body on success and `None` on transport failure; the
exception is absorbed inside `_request`, so nothing propagates to the
caller (each embedding is a total function into `Option`). -/
theorem gateway_transport_error_contract (cred : Credentials) (nowMs : ℕ) :
    (∀ (β : Type) (tr : Transport OrderBody β) (dumps : OrderBody → String)
      (e sym side ts size mc ot : String) (price trig : Option ℚ),
      (∀ w, tr w = .error e) →
      place_order cred nowMs tr dumps sym side ts size mc ot price trig = none)
    ∧ (∀ (β : Type) (tr : Transport OrderBody β) (dumps : OrderBody → String)
      (status : ℕ) (b : β) (sym side ts size mc ot : String)
      (price trig : Option ℚ),
      (∀ w, tr w = .ok (status, b)) →
      place_order cred nowMs tr dumps sym side ts size mc ot price trig = some b)
    ∧ (∀ (β : Type) (tr : Transport TpslBody β) (dumps : TpslBody → String)
      (e sym pt : String) (tp : ℚ) (hs size ep : String),
      (∀ w, tr w = .error e) →
      place_tpsl_order cred nowMs tr dumps sym pt tp hs size ep = none)
    ∧ (∀ (β : Type) (tr : Transport TpslBody β) (dumps : TpslBody → String)
      (status : ℕ) (b : β) (sym pt : String) (tp : ℚ) (hs size ep : String),
      (∀ w, tr w = .ok (status, b)) →
      place_tpsl_order cred nowMs tr dumps sym pt tp hs size ep = some b)
    ∧ (∀ (β : Type) (tr : Transport (List (String × String)) β)
      (dumps : List (String × String) → String) (e sym mc : String),
      (∀ w, tr w = .error e) →
      close_position cred nowMs tr dumps sym mc = none)
    ∧ (∀ (β : Type) (tr : Transport (List (String × String)) β)
      (dumps : List (String × String) → String) (status : ℕ) (b : β)
      (sym mc : String),
      (∀ w, tr w = .ok (status, b)) →
      close_position cred nowMs tr dumps sym mc = some b)
    ∧ (∀ (β : Type) (tr : Transport (List (String × String)) β)
      (dumps : List (String × String) → String) (e sym oid : String),
      (∀ w, tr w = .error e) →
      cancel_order cred nowMs tr dumps sym oid = none)
    ∧ (∀ (β : Type) (tr : Transport (List (String × String)) β)
      (dumps : List (String × String) → String) (status : ℕ) (b : β)
      (sym oid : String),
      (∀ w, tr w = .ok (status, b)) →
      cancel_order cred nowMs tr dumps sym oid = some b)
    ∧ (∀ (δ β : Type) (tr : Transport δ β) (dumps : δ → String)
      (e sym oid : String),
      (∀ w, tr w = .error e) →
      get_order_detail cred nowMs tr dumps sym oid = none)
    ∧ (∀ (δ β : Type) (tr : Transport δ β) (dumps : δ → String)
      (status : ℕ) (b : β) (sym oid : String),
      (∀ w, tr w = .ok (status, b)) →
      get_order_detail cred nowMs tr dumps sym oid = some b)
    ∧ (∀ (δ β : Type) (tr : Transport δ β) (dumps : δ → String)
      (e : String) (sym st : Option String) (lim : String),
      (∀ w, tr w = .error e) →
      get_pending_orders cred nowMs tr dumps sym st lim = none)
    ∧ (∀ (δ β : Type) (tr : Transport δ β) (dumps : δ → String)
      (status : ℕ) (b : β) (sym st : Option String) (lim : String),
      (∀ w, tr w = .ok (status, b)) →
      get_pending_orders cred nowMs tr dumps sym st lim = some b)
    ∧ (∀ (δ : Type) (tr : Transport δ PosResponse) (dumps : δ → String)
      (e sym : String),
      (∀ w, tr w = .error e) →
      get_position cred nowMs tr dumps sym = none)
    ∧ (∀ (δ : Type) (tr : Transport δ PosResponse) (dumps : δ → String)
      (status : ℕ) (r : PosResponse) (sym : String),
      (∀ w, tr w = .ok (status, r)) →
      get_position cred nowMs tr dumps sym =
        positionOfResponse sym nowMs (some r)) := by
  refine ⟨?_, ?_, ?_, ?_, ?_, ?_, ?_, ?_, ?_, ?_, ?_, ?_, ?_, ?_⟩
  · intro β tr dumps e sym side ts size mc ot price trig h
    unfold place_order
    exact request_error _ _ _ _ _ _ _ _ _ h
  · intro β tr dumps status b sym side ts size mc ot price trig h
    unfold place_order
    exact request_ok _ _ _ _ _ _ _ _ _ _ h
  · intro β tr dumps e sym pt tp hs size ep h
    unfold place_tpsl_order
    exact request_error _ _ _ _ _ _ _ _ _ h
  · intro β tr dumps status b sym pt tp hs size ep h
    unfold place_tpsl_order
    exact request_ok _ _ _ _ _ _ _ _ _ _ h
  · intro β tr dumps e sym mc h
    unfold close_position
    exact request_error _ _ _ _ _ _ _ _ _ h
  · intro β tr dumps status b sym mc h
    unfold close_position
    exact request_ok _ _ _ _ _ _ _ _ _ _ h
  · intro β tr dumps e sym oid h
    unfold cancel_order
    exact request_error _ _ _ _ _ _ _ _ _ h
  · intro β tr dumps status b sym oid h
    unfold cancel_order
    exact request_ok _ _ _ _ _ _ _ _ _ _ h
  · intro δ β tr dumps e sym oid h
    unfold get_order_detail
    exact request_error _ _ _ _ _ _ _ _ _ h
  · intro δ β tr dumps status b sym oid h
    unfold get_order_detail
    exact request_ok _ _ _ _ _ _ _ _ _ _ h
  · intro δ β tr dumps e sym st lim h
    unfold get_pending_orders
    exact request_error _ _ _ _ _ _ _ _ _ h
  · intro δ β tr dumps status b sym st lim h
    unfold get_pending_orders
    exact request_ok _ _ _ _ _ _ _ _ _ _ h
  · intro δ tr dumps e sym h
    unfold get_position
    rw [request_error _ _ _ _ _ _ _ _ _ h]
    rfl
  · intro δ tr dumps status r sym h
    unfold get_position
    rw [request_ok _ _ _ _ _ _ _ _ _ _ h]

/-- Witness for C6: a dropped transport yields `None` from
`place_order`, and a successful transport returns the parsed body from
`close_position`. -/
theorem gateway_transport_error_contract_witness :
    place_order demoCred 1
        (fun _ : WireRequest OrderBody => (Except.error "down" : Except String (ℕ × ℕ)))
        (fun _ => "") "BTCUSDT" "buy" "open" "1" "USDT" "limit" none none = none
    ∧ close_position demoCred 1
        (fun _ : WireRequest (List (String × String)) =>
          (Except.ok (200, 7) : Except String (ℕ × ℕ)))
        (fun _ => "") "BTCUSDT" "USDT" = some 7 :=
  let h := gateway_transport_error_contract demoCred 1
  ⟨h.1 ℕ _ _ "down" "BTCUSDT" "buy" "open" "1" "USDT" "limit" none none
      (fun _ => rfl),
    h.2.2.2.2.2.1 ℕ _ _ 200 7 "BTCUSDT" "USDT" (fun _ => rfl)⟩

theorem pyRound_nearest (y : ℚ) (k : ℤ) :
    |(pyRound y : ℚ) - y| ≤ |(k : ℚ) - y| := by
  have hf1 : (⌊y⌋ : ℚ) ≤ y := Int.floor_le y
  have hf2 : y < ⌊y⌋ + 1 := Int.lt_floor_add_one y
  have hk : (k : ℚ) ≤ (⌊y⌋ : ℚ) ∨ (⌊y⌋ : ℚ) + 1 ≤ (k : ℚ) := by
    rcases Int.le_or_lt k ⌊y⌋ with h | h
    · exact Or.inl (by exact_mod_cast h)
    · right
      have h' : ⌊y⌋ + 1 ≤ k := h
      exact_mod_cast h'
  have habs0 : 0 ≤ |(k : ℚ) - y| := abs_nonneg _
  have habs1 : (k : ℚ) - y ≤ |(k : ℚ) - y| := le_abs_self _
  have habs2 : y - (k : ℚ) ≤ |(k : ℚ) - y| := by
    rw [abs_sub_comm]
    exact le_abs_self _
  rw [abs_sub_le_iff]
  unfold pyRound
  by_cases h1 : y - ⌊y⌋ < 1/2
  · rw [if_pos h1]
    constructor <;> rcases hk with h | h <;> linarith
  · rw [if_neg h1]
    by_cases h2 : 1/2 < y - ⌊y⌋
    · rw [if_pos h2]
      push_cast
      constructor <;> rcases hk with h | h <;> linarith
    · rw [if_neg h2]
      have hhalf : y - ⌊y⌋ = 1/2 := by linarith
      by_cases h3 : Even ⌊y⌋
      · rw [if_pos h3]
        constructor <;> rcases hk with h | h <;> linarith
      · rw [if_neg h3]
        push_cast
        constructor <;> rcases hk with h | h <;> linarith

theorem normalizeTick_nearest (p : ℚ) (k : ℤ) :
    |normalizeTick p - p| ≤ |(k : ℚ) / 10 - p| := by
  have h := pyRound_nearest (p * 10) k
  have e1 : |normalizeTick p - p| = |(pyRound (p * 10) : ℚ) - p * 10| / 10 := by
    rw [normalizeTick,
      show (pyRound (p * 10) : ℚ) / 10 - p = ((pyRound (p * 10) : ℚ) - p * 10) / 10 by ring,
      abs_div]
    norm_num
  have e2 : |(k : ℚ) / 10 - p| = |(k : ℚ) - p * 10| / 10 := by
    rw [show (k : ℚ) / 10 - p = ((k : ℚ) - p * 10) / 10 by ring, abs_div]
    norm_num
  rw [e1, e2]
  exact (div_le_div_iff_of_pos_right (by norm_num)).mpr h

/-- C8: in every `place_order` call, a price or trigger price that makes
it into the submitted body is the tick normalisation of the supplied
value — a multiple of 0.1 that is nearest to the supplied value among
all multiples of 0.1 (ties resolved to even, per Python `round`) — and
the submitted order type is the supplied one mapped through the fixed
table market→market, limit→limit, stop→profit_stop with any other value
defaulting to limit; an echoing transport shows `place_order` submits
exactly this body. -/
theorem place_order_normalization (cred : Credentials) (nowMs : ℕ)
    (symbol side trade_side size margin_coin order_type : String)
    (price trigger_price : Option ℚ) :
    (∀ q, (placeOrderBody symbol side trade_side size margin_coin order_type
        price trigger_price).price = some q →
      ∃ p, price = some p ∧ q = normalizeTick p ∧ (∃ m : ℤ, q = (m : ℚ) / 10)
        ∧ ∀ m : ℤ, |q - p| ≤ |(m : ℚ) / 10 - p|)
    ∧ (∀ q, (placeOrderBody symbol side trade_side size margin_coin order_type
        price trigger_price).triggerPrice = some q →
      ∃ p, trigger_price = some p ∧ q = normalizeTick p
        ∧ (∃ m : ℤ, q = (m : ℚ) / 10)
        ∧ ∀ m : ℤ, |q - p| ≤ |(m : ℚ) / 10 - p|)
    ∧ (placeOrderBody symbol side trade_side size margin_coin order_type
        price trigger_price).orderType = mapOrderType order_type
    ∧ (order_type = "market" → mapOrderType order_type = "market")
    ∧ (order_type = "limit" → mapOrderType order_type = "limit")
    ∧ (order_type = "stop" → mapOrderType order_type = "profit_stop")
    ∧ (order_type ≠ "market" → order_type ≠ "limit" → order_type ≠ "stop" →
        mapOrderType order_type = "limit")
    ∧ (∀ (tr : Transport OrderBody (Option OrderBody))
        (dumps : OrderBody → String),
        (∀ w, tr w = .ok (200, w.body)) →
        place_order cred nowMs tr dumps symbol side trade_side size
          margin_coin order_type price trigger_price =
        some (some (placeOrderBody symbol side trade_side size margin_coin
          order_type price trigger_price))) := by
  refine ⟨?_, ?_, rfl, ?_, ?_, ?_, ?_, ?_⟩
  · intro q hq
    unfold placeOrderBody at hq
    dsimp only at hq
    by_cases hc : order_type = "limit" ∧ (price.map normalizeTick).isSome
    · rw [if_pos hc] at hq
      rcases price with _ | p
      · simp at hq
      · have hqv : q = normalizeTick p := by simpa [Option.map] using hq.symm
        refine ⟨p, rfl, hqv, ⟨pyRound (p * 10), by rw [hqv]; rfl⟩, fun m => ?_⟩
        rw [hqv]
        exact normalizeTick_nearest p m
    · rw [if_neg hc] at hq
      cases hq
  · intro q hq
    unfold placeOrderBody at hq
    dsimp only at hq
    by_cases hc : order_type = "stop" ∧ (trigger_price.map normalizeTick).isSome
    · rw [if_pos hc] at hq
      rcases trigger_price with _ | p
      · simp at hq
      · have hqv : q = normalizeTick p := by simpa [Option.map] using hq.symm
        refine ⟨p, rfl, hqv, ⟨pyRound (p * 10), by rw [hqv]; rfl⟩, fun m => ?_⟩
        rw [hqv]
        exact normalizeTick_nearest p m
    · rw [if_neg hc] at hq
      cases hq
  · intro h
    rw [h]
    rfl
  · intro h
    rw [h]
    rfl
  · intro h
    rw [h]
    rfl
  · intro h1 h2 h3
    simp [mapOrderType, orderTypeMapping, List.find?, Ne.symm h1, Ne.symm h2,
      Ne.symm h3]
  · intro tr dumps htr
    unfold place_order request
    simp only [htr]

/-- Witness for C8: submitting price 0.25 as a limit order yields body
price 0.2 (round half to even) with the limit order type. -/
theorem place_order_normalization_witness :
    (placeOrderBody "BTCUSDT" "buy" "open" "1" "USDT" "limit"
      (some (1/4)) none).price = some (1/5)
    ∧ mapOrderType "limit" = "limit" := by
  have h := place_order_normalization demoCred 1 "BTCUSDT" "buy" "open" "1"
    "USDT" "limit" (some (1/4)) none
  refine ⟨?_, h.2.2.2.2.1 rfl⟩
  have hq : (placeOrderBody "BTCUSDT" "buy" "open" "1" "USDT" "limit"
      (some (1/4)) none).price = some (normalizeTick (1/4)) := by
    simp [placeOrderBody]
  rw [hq]
  norm_num [normalizeTick, pyRound]

end Bitget
